import Mathlib

/-
Verification development for the h5io object-serialization library
(`h5io/_h5io.py`, `h5io/chunked_array.py`).

The storage layer (h5py) is modelled as a tree of nodes: a node is either a
titled dataset (payload buffer + TITLE type-tag), a titled group (TITLE tag,
optional SIZE attribute, named children), or a chunked dataset created by
`_create_write_chunked_array` (shape and chunk geometry plus the log of
region writes applied to it; HDF5 fills unwritten regions with zeros).
Child collections are modelled as insertion-ordered association lists with
unique names; h5py enumerates children by name, which coincides with
insertion order in every concrete scenario proved below.

Keys and stored text are modelled as `List Char` (mirroring Python `str`
operations such as slicing and `str.replace` character-for-character).

Recursive functions carry an explicit fuel argument so that every
definition is structurally recursive and kernel-computable; the Python
recursion terminates on finite values/trees, and every theorem below uses
a fuel that is sufficient for (and insensitive to) its inputs.
-/

abbrev HKey := List Char

-- special_chars = {'{FWDSLASH}': '/'}  (_h5io.py line 18)
def fwdslashToken : HKey := ['{', 'F', 'W', 'D', 'S', 'L', 'A', 'S', 'H', '}']

-- the "key_" prefix used for dict children ('key_{0}'.format(key))
def keyMark : HKey := ['k', 'e', 'y', '_']

-- the "idx_" prefix used for list/chunkedlist children ('idx_{0}'.format(ii))
def idxMark : HKey := ['i', 'd', 'x', '_']

-- the top-level title 'h5io' (default `title` argument)
def hTitle : HKey := ['h', '5', 'i', 'o']

-- the string 'update' accepted by the `overwrite` argument
def updateChars : HKey := ['u', 'p', 'd', 'a', 't', 'e']

/-- Decimal digit characters of `n`, most significant first, with bounded
fuel (`'{0}'.format(i)` in Python). Fuel at least `n + 1` always suffices. -/
def natCharsAux : Nat → Nat → List Char
  | 0, _ => []
  | fuel + 1, n =>
    if n < 10 then [Nat.digitChar n]
    else natCharsAux fuel (n / 10) ++ [Nat.digitChar (n % 10)]

/-- Decimal representation of a natural number as characters. -/
def natChars (n : Nat) : List Char := natCharsAux (n + 1) n

/-- Synthetic child name `idx_<i>` used for sequence/chunked-list entries. -/
def idxName (i : Nat) : HKey := idxMark ++ natChars i

/-- Synthetic child name `key_<k>` used for dict entries. -/
def keyName (k : HKey) : HKey := keyMark ++ k

/-- Key escaping on write with `slash='replace'`:
`key.replace('/', '{FWDSLASH}')` (_h5io.py lines 185-186). -/
def escapeKey : HKey → HKey
  | [] => []
  | c :: rest => if c = '/' then fwdslashToken ++ escapeKey rest else c :: escapeKey rest

/-- Worker for `unescapeKey`; fuel at least the length of the key suffices
since every step consumes at least one character. -/
def unescapeKeyGo : Nat → HKey → HKey
  | 0, k => k
  | _ + 1, [] => []
  | fuel + 1, c :: rest =>
    if fwdslashToken.isPrefixOf (c :: rest) then
      '/' :: unescapeKeyGo fuel (rest.drop 9)
    else
      c :: unescapeKeyGo fuel rest

/-- Key unescaping applied on read and during dict reconciliation with
`slash == 'replace'`: `key.replace('{FWDSLASH}', '/')`
(_h5io.py lines 207-208 and 408-409). -/
def unescapeKey (k : HKey) : HKey := unescapeKeyGo k.length k

/-- Whether a key contains the literal reserved escape token as a substring. -/
def containsToken : HKey → Bool
  | [] => false
  | c :: rest => fwdslashToken.isPrefixOf (c :: rest) || containsToken rest

-- Type-tags written as the TITLE attribute of stored nodes.
inductive Tag where
  | tDict
  | tList
  | tTuple
  | tChunkedList
  | tNone
  | tInt
  | tFloat
  | tUnicode
  | tNdarray
  deriving DecidableEq

-- One constructor per source raise site / model-internal failure.
inductive Err where
  | slashForbidden          -- ValueError 'Found a key with "/" ...'
  | unsupportedType         -- TypeError 'unsupported type ...'
  | fileExistsErr           -- IOError 'file "..." exists, use overwrite=True ...'
  | badOverwriteArg         -- ValueError 'overwrite must be "update" or a bool'
  | storedShapeMismatch     -- ValueError 'The stored shape ... does not match ...'
  | storedChunkSizeMismatch -- ValueError 'The stored chunk size ... does not match ...'
  | chunkNumberTooLarge     -- ValueError 'The chunk number ... is too large ...'
  | chunkSizeMismatch       -- ValueError 'The chunk size ... does not match ...'
  | indexError              -- Python IndexError: tuple index out of range
  | noData                  -- ValueError 'no "<title>" data found'
  | unknownGroupType        -- NotImplementedError 'Unknown group type'
  | unknownNodeType         -- TypeError 'Unknown node type'
  | unsupportedArrayType    -- TypeError 'unsupported array type' (multiarray)
  | missingSizeAttr         -- KeyError reading the SIZE attribute
  | keyError                -- KeyError from `del sub_root[key]` at an absent name
  | internalInvariant       -- unreachable branch of the model
  | fuelOut                 -- model fuel exhausted (never with adequate fuel)
  deriving DecidableEq

-- Dataset payloads: numpy buffers created by the write dispatcher.
inductive Payload where
  | ints (xs : List Int)    -- np.atleast_1d of an int (or modelled float) scalar
  | bools (xs : List Bool)  -- [False] for None; np.atleast_1d of a Python bool
  | bytes (s : List Char)   -- np.frombuffer(text.encode(...), np.uint8)
  | nd (shape : List Nat) (vals : List Int)  -- dense ndarray (C-order values)
  deriving DecidableEq

-- A region write applied to a chunked dataset: the (start, stop) bounds per
-- axis (step is always 1) and the flattened chunk payload.
abbrev CAWrite := List (Nat × Nat) × List Int

inductive Node where
  | dataset (tag : Tag) (payload : Payload)
  | group (tag : Tag) (size : Option Nat) (children : List (HKey × Node))
  | cdset (shape chunks : List Nat) (hist : List CAWrite)

abbrev Children := List (HKey × Node)

instance : Inhabited Node := ⟨.dataset .tNone (.bools [])⟩

/-- Child lookup by name (`root[key]` / `root.get(key, None)`). -/
def lookupChild : Children → HKey → Option Node
  | [], _ => none
  | e :: rest, k => if e.1 = k then some e.2 else lookupChild rest k

/-- Existence check (`key in root`). -/
def hasChild (cs : Children) (k : HKey) : Bool := (lookupChild cs k).isSome

/-- Store a node under a name, replacing an existing entry in place or
appending a new one (the net effect of delete-then-create in h5py, whose
enumeration is by name rather than by creation time). -/
def setChild : Children → HKey → Node → Children
  | [], k, nd => [(k, nd)]
  | e :: rest, k, nd => if e.1 = k then (k, nd) :: rest else e :: setChild rest k nd

/-- Delete a child by name (`del root[key]`). -/
def delChild : Children → HKey → Children
  | [], _ => []
  | e :: rest, k => if e.1 = k then delChild rest k else e :: delChild rest k

/-
In-memory Python values handled by the dispatcher. Branches of
`_triage_write` for value kinds outside every claim (datetime, timezone,
numpy scalars, sparse matrices, pandas frames, and object-dtype ndarrays)
are not modelled; the multiarray codec they rely on is verified standalone
below. Float payloads are modelled by an integer since no claim depends on
non-integral float arithmetic; the int/float distinction lives in the tags.
-/

-- A validated ChunkedArray (chunked_array.py): the fields set by __init__.
structure ChunkedArrayV where
  dataShape : List Nat     -- self.chunkdata.shape
  dataVals : List Int      -- the chunk payload, flattened in C order
  shape : List Nat         -- self.shape
  chunk_size : List Nat    -- self.chunk_size
  n_chunk : Nat            -- self.n_chunk
  chunk_start : Nat        -- self._chunk_start
  chunk_end : Nat          -- self._chunk_end
  deriving DecidableEq

inductive PyVal where
  | pNone
  | pBool (b : Bool)
  | pInt (n : Int)
  | pFloat (x : Int)
  | pStr (s : List Char)
  | pList (xs : List PyVal)
  | pTuple (xs : List PyVal)
  | pDict (entries : List (HKey × PyVal))
  | pChunkedList (data : List PyVal) (size : Nat) (start : Nat)
  | pChunkedArray (ca : ChunkedArrayV)
  | pNdarray (shape : List Nat) (vals : List Int)

instance : Inhabited PyVal := ⟨.pNone⟩

/-- Tuple indexing `t[i]`, raising IndexError when out of range. -/
def tupleGet (l : List Nat) (i : Nat) : Except Err Nat :=
  match l.get? i with
  | some v => .ok v
  | none => .error .indexError

/-- ChunkedArray.__init__ (chunked_array.py lines 32-59): computes
`_chunk_start = n_chunk * chunk_size[2]` and
`_chunk_end = min((n_chunk + 1) * chunk_size[2], shape[2])`, raising
ValueError when the chunk number exceeds the last-axis extent or when the
computed sub-region length differs from `chunkdata.shape[2]`. Note the
hard-coded index 2: a 2-tuple `chunk_size`/`shape` raises IndexError. -/
def chunkedArrayMake (dataShape : List Nat) (dataVals : List Int)
    (shape chunk_size : List Nat) (n_chunk : Nat) : Except Err ChunkedArrayV := do
  let cs2 ← tupleGet chunk_size 2
  let chunk_start := n_chunk * cs2
  let chunkEnd0 := (n_chunk + 1) * cs2
  let sh2 ← tupleGet shape 2
  let chunk_end := if chunkEnd0 > sh2 then sh2 else chunkEnd0
  if chunk_start > sh2 then
    .error .chunkNumberTooLarge
  else
    let tChunkSize := chunk_end - chunk_start
    let d2 ← tupleGet dataShape 2
    if tChunkSize ≠ d2 then
      .error .chunkSizeMismatch
    else
      .ok ⟨dataShape, dataVals, shape, chunk_size, n_chunk, chunk_start, chunk_end⟩

/-- ChunkedArray.chunkslice (chunked_array.py lines 61-69):
`(slice(0, shape[0]), slice(0, shape[1]), slice(_chunk_start, _chunk_end))`. -/
def ChunkedArrayV.chunkslice (ca : ChunkedArrayV) : Except Err (List (Nat × Nat)) := do
  let s0 ← tupleGet ca.shape 0
  let s1 ← tupleGet ca.shape 1
  .ok [(0, s0), (0, s1), (ca.chunk_start, ca.chunk_end)]

/-- _create_write_chunked_array (_h5io.py lines 65-83). On first write the
dataset is created with the fragment's shape and chunk geometry (TITLE
'chunkedarray'); on later writes the stored geometry is compared with the
fragment's. `stored_shape != value.shape` compares Python tuples, so it is
a single scalar inequality and `np.all` of it is that same boolean. The
region write `dset[value.chunkslice] = value.chunkdata` is logged. -/
def createWriteChunkedArray (root : Children) (key : HKey) (ca : ChunkedArrayV) :
    Except Err Children :=
  match lookupChild root key with
  | none => do
      let sl ← ca.chunkslice
      .ok (setChild root key (.cdset ca.shape ca.chunk_size [(sl, ca.dataVals)]))
  | some (.cdset storedShape storedChunks hist) =>
      if storedShape ≠ ca.shape then .error .storedShapeMismatch
      else if storedChunks ≠ ca.chunk_size then .error .storedChunkSizeMismatch
      else do
        let sl ← ca.chunkslice
        .ok (setChild root key (.cdset storedShape storedChunks (hist ++ [(sl, ca.dataVals)])))
  | some _ =>
      -- an existing non-chunked node has no .shape/.chunks; h5py errors here
      .error .internalInvariant

/-
MultiArrayCodec (_h5io.py lines 694-745), modelled for one-dimensional
sub-arrays of integers: element dtype uniformity holds by typing, and the
trailing-dimension check `shape_lst[0][1:] == t[1:]` compares empty tails,
so `_validate_sub_shapes` always passes. `_validate_object_array` requires
the set of element dtypes to have exactly one member, which for a
homogeneous array is nonemptiness.
-/

/-- _validate_object_array: `len(set(sub.dtype for sub in array)) == 1`;
an empty object array has an empty dtype set and is rejected. -/
def validateObjectArray (a : List (List Int)) : Except Err Unit :=
  if a.isEmpty then .error .unsupportedArrayType else .ok ()

/-- _shape_list for 1-D sub-arrays: each shape is its length. -/
def shapeList (a : List (List Int)) : List Nat := a.map List.length

/-- _array_index: the leading dimension of each sub-shape. -/
def arrayIndex (l : List Nat) : List Nat := l

/-- Loop body of _index_sum: append the running total plus the step
(or the step itself when the accumulator is empty). -/
def indexSumAux : List Nat → List Nat → List Nat
  | acc, [] => acc
  | acc, step :: rest => indexSumAux (acc ++ [acc.getLast?.getD 0 + step]) rest

/-- _index_sum (_h5io.py lines 713-720): cumulative sums of the leading
dimensions. -/
def index_sum (l : List Nat) : List Nat := indexSumAux [] l

/-- _merge_array (_h5io.py lines 723-727): concatenate all elements along
the leading axis. -/
def merge_array (a : List (List Int)) : List Int := a.flatten

/-- multiarray_dump (_h5io.py lines 730-735). -/
def multiarray_dump (a : List (List Int)) : Except Err (List Nat × List Int) :=
  match validateObjectArray a with
  | .error e => .error e
  | .ok _ => .ok (index_sum (arrayIndex (shapeList a)), merge_array a)

/-- Loop of multiarray_load: slice `merged[i_prev:i]` for each boundary in
`index[:-1]`, then append the final slice `merged[i_prev:]`. -/
def multiarrayLoadGo (merged : List Int) : Nat → List Nat → List (List Int)
  | iPrev, [] => [merged.drop iPrev]
  | iPrev, i :: rest => (merged.take i).drop iPrev :: multiarrayLoadGo merged i rest

/-- multiarray_load (_h5io.py lines 738-745). -/
def multiarray_load (index : List Nat) (merged : List Int) : List (List Int) :=
  multiarrayLoadGo merged 0 index.dropLast

/-- Structural form of the cumulative sums `[l0, l0+l1, ...]`, used to
reason about `index_sum` (which builds the same list with an accumulator). -/
def cumulLens : List Nat → List Nat
  | [] => []
  | x :: rest => x :: (cumulLens rest).map (· + x)

/-
Helpers for the recursive write/read dispatchers.
-/

inductive WSlash where
  | werror
  | wreplace
  deriving DecidableEq

inductive RSlash where
  | rignore
  | rreplace
  deriving DecidableEq

/-- Reconciliation pass of the dict branch (_h5io.py lines 204-210): for
each child name in a snapshot of the group, under `slash == 'replace'`
the loop variable `key` is rebound to the decoded name (the escape
substitution undone), and when `key[4:]` is not a key of the dict being
written the deletion `del sub_root[key]` happens at that DECODED name.
In h5py, deleting at a name that is not present raises a KeyError (a
decoded name containing '/' is resolved as a path whose first component
`key_` is not a child), which the model reports as `Err.keyError`. -/
def dictPrune (names : List HKey) (entries : List (HKey × PyVal)) (slash : WSlash)
    (ch : Children) : Except Err Children :=
  match names with
  | [] => .ok ch
  | name :: rest =>
      let decoded := if slash = .wreplace then unescapeKey name else name
      if entries.any (fun e => e.1 = decoded.drop 4) then
        dictPrune rest entries slash ch
      else if hasChild ch decoded then
        dictPrune rest entries slash (delChild ch decoded)
      else .error .keyError

/-- Trailing-index deletion of the list/tuple branch (_h5io.py lines
219-225): `ii = len(value); while True:` probe `idx_<ii>`, break when
absent, else `del sub_root[t_key]`. The loop body never increments `ii`,
so every iteration probes the SAME name: after a deletion the next probe
finds it absent and breaks. At most the single child `idx_<len(value)>`
is ever deleted. Fuel equal to the number of children plus one bounds the
(at most two) iterations, so the model agrees with the Python loop. -/
def deleteTrailing : Children → Nat → Nat → Children
  | ch, _, 0 => ch
  | ch, i, fuel + 1 =>
      if hasChild ch (idxName i) then deleteTrailing (delChild ch (idxName i)) i fuel
      else ch

/-- Python dict assignment `data[key] = v` used while assembling a read
dict: overwrite in place or append. -/
def dictInsert (es : List (HKey × PyVal)) (k : HKey) (v : PyVal) : List (HKey × PyVal) :=
  match es with
  | [] => [(k, v)]
  | e :: rest => if e.1 = k then (k, v) :: rest else e :: dictInsert rest k v

/-- Modelled from the spec: the `ChunkedList` class (chunked_list.py is
imported by _h5io.py but absent from the sources). Per spec section 4.1
item 4 a ChunkedListFragment carries a total logical size, a start offset
and ordered sub-values, and `value.enumerate` pairs each sub-value with
its global index `start + offset` (matching `idx_<start+offset>`
addressing and the tests' `ChunkedList(t_data, total_len, start)`). -/
def chunkedListEnumerate (data : List PyVal) (start : Nat) : List (Nat × PyVal) :=
  List.enumFrom start data

/-- _get_sub_root (_h5io.py lines 162-172): reuse the existing node at
`key` when its TITLE matches, otherwise (or when absent) start from a
fresh titled group. Returns the children and SIZE attribute to build on;
the caller stores the updated group back under `key`. A dataset never
carries one of the group tags this is called with. -/
def getSubRoot (root : Children) (key : HKey) (title : Tag) : Children × Option Nat :=
  match lookupChild root key with
  | some (.group t sz ch) => if t = title then (ch, sz) else ([], none)
  | _ => ([], none)

/-- _triage_write (_h5io.py lines 175-340), restricted to the modelled
value kinds, with `use_json=False` (the default in every claim) so the
JSON fast path at lines 190-195 is skipped. The `key != title` guard of
the slash check is tracked by `isRoot`: the top-level call passes
`key = title`, recursive calls pass `title=None`. Python `bool` is a
subclass of `int`, so `pBool` is handled by the `isinstance(value, (int,
float))` branch (lines 245-252) with title 'int' and a stored length-1
boolean buffer (`np.atleast_1d(True)`). Scalar branches delete any
existing node at `key` and create a fresh titled dataset, which
`setChild` models. Fuel bounds the recursion depth. -/
def triageWrite : Nat → HKey → PyVal → Children → WSlash → Bool → Except Err Children
  | 0, _, _, _, _, _ => .error .fuelOut
  | fuel + 1, key0, value, root, slash, isRoot => do
    let key ←
      if ¬ isRoot ∧ '/' ∈ key0 then
        match slash with
        | .werror => Except.error Err.slashForbidden
        | .wreplace => Except.ok (escapeKey key0)
      else Except.ok key0
    match value with
    | .pDict entries =>
        let ch0 := (getSubRoot root key .tDict).1
        -- `if not isinstance(key, str): raise TypeError` is vacuous here:
        -- entry keys are strings by the type of `entries`
        let ch1 ← entries.foldlM
          (fun ch e => triageWrite fuel (keyMark ++ e.1) e.2 ch slash false) ch0
        let ch2 ← dictPrune (ch1.map Prod.fst) entries slash ch1
        .ok (setChild root key (.group .tDict none ch2))
    | .pList xs =>
        let ch0 := (getSubRoot root key .tList).1
        let ch1 ← (List.enumFrom 0 xs).foldlM
          (fun ch e => triageWrite fuel (idxName e.1) e.2 ch slash false) ch0
        let ch2 := deleteTrailing ch1 xs.length (ch1.length + 1)
        .ok (setChild root key (.group .tList none ch2))
    | .pTuple xs =>
        let ch0 := (getSubRoot root key .tTuple).1
        let ch1 ← (List.enumFrom 0 xs).foldlM
          (fun ch e => triageWrite fuel (idxName e.1) e.2 ch slash false) ch0
        let ch2 := deleteTrailing ch1 xs.length (ch1.length + 1)
        .ok (setChild root key (.group .tTuple none ch2))
    | .pChunkedList data size start =>
        let pr := getSubRoot root key .tChunkedList
        -- set SIZE when absent; on a size mismatch delete the group and
        -- start over with a fresh one carrying the new SIZE
        let st := match pr.2 with
          | none => (pr.1, size)
          | some s => if s ≠ size then (([] : Children), size) else (pr.1, s)
        let ch1 ← (chunkedListEnumerate data start).foldlM
          (fun ch e => triageWrite fuel (idxName e.1) e.2 ch slash false) st.1
        .ok (setChild root key (.group .tChunkedList (some st.2) ch1))
    | .pNone => .ok (setChild root key (.dataset .tNone (.bools [false])))
    | .pBool b => .ok (setChild root key (.dataset .tInt (.bools [b])))
    | .pInt n => .ok (setChild root key (.dataset .tInt (.ints [n])))
    | .pFloat x => .ok (setChild root key (.dataset .tFloat (.ints [x])))
    | .pStr s => .ok (setChild root key (.dataset .tUnicode (.bytes s)))
    | .pNdarray shape vals =>
        -- ndarray branch, uniform element dtype (lines 280-285)
        .ok (setChild root key (.dataset .tNdarray (.nd shape vals)))
    | .pChunkedArray ca => createWriteChunkedArray root key ca

/-
Assembly of a chunked dataset on read: `np.array(node)` materialises the
dataset, i.e. a zero-filled buffer of the stored shape with every logged
region write applied in order (HDF5's default fill value is 0).
-/

/-- Row-major (C order) flat offset of a multi-index. -/
def flatIdx (shape idx : List Nat) : Nat :=
  (shape.zip idx).foldl (fun acc p => acc * p.1 + p.2) 0

/-- All multi-indices of a rectangular region, lexicographically. -/
def sliceIdxs : List (Nat × Nat) → List (List Nat)
  | [] => [[]]
  | b :: rest => (List.range' b.1 (b.2 - b.1)).flatMap (fun i => (sliceIdxs rest).map (i :: ·))

/-- Apply one region write to a flat buffer. -/
def applyCAWrite (shape : List Nat) (buf : List Int) (w : CAWrite) : List Int :=
  (List.enumFrom 0 (sliceIdxs w.1)).foldl
    (fun b p => b.set (flatIdx shape p.2) (w.2.getD p.1 0)) buf

/-- Materialise a chunked dataset (zero fill, then the logged writes). -/
def assembleChunked (shape : List Nat) (hist : List CAWrite) : List Int :=
  hist.foldl (applyCAWrite shape) (List.replicate (shape.foldl (· * ·) 1) 0)

/-- _triage_read (_h5io.py lines 395-489), restricted to the modelled
tags. Dispatch is purely on the stored TITLE tag. The list/tuple branch
probes `idx_0, idx_1, ...` until one is absent; indices `0..len(children)`
cannot all be present (child names are distinct), so probing the range
`0..len(children)+1` and keeping the prefix of present indices agrees with
the unbounded Python loop, and its `assert len(data) == ii` invariant
holds by construction. The 'int' branch is `int(np.array(node)[0])`, which
casts a stored boolean to 0/1. Fuel bounds the recursion depth. -/
def triageRead : Nat → Node → RSlash → Except Err PyVal
  | 0, _, _ => .error .fuelOut
  | fuel + 1, node, slash =>
    match node with
    | .group tag sz ch =>
      match tag with
      | .tDict => do
          let es ← ch.foldlM (fun acc e => do
                let name := if slash = .rreplace then unescapeKey e.1 else e.1
                let v ← triageRead fuel e.2 slash
                pure (dictInsert acc (name.drop 4) v)) ([] : List (HKey × PyVal))
          .ok (.pDict es)
      | .tList | .tTuple => do
          let idxs := (List.range (ch.length + 1)).takeWhile (fun i => hasChild ch (idxName i))
          let vals ← idxs.mapM (fun i =>
                match lookupChild ch (idxName i) with
                | some nd => triageRead fuel nd slash
                | none => .error .internalInvariant)
          .ok (if tag = .tTuple then .pTuple vals else .pList vals)
      | .tChunkedList =>
          match sz with
          | none => .error .missingSizeAttr
          | some n => do
              let vals ← (List.range n).mapM (fun i =>
                    match lookupChild ch (idxName i) with
                    | none => .ok PyVal.pNone
                    | some nd => triageRead fuel nd slash)
              .ok (.pList vals)
      | _ => .error .unknownGroupType
    | .dataset tag payload =>
      match tag, payload with
      | .tNdarray, .nd shape vals => .ok (.pNdarray shape vals)
      | .tInt, .ints xs => .ok (.pInt (xs.getD 0 0))
      | .tInt, .bools xs => .ok (.pInt (if xs.getD 0 false then 1 else 0))
      | .tFloat, .ints xs => .ok (.pFloat (xs.getD 0 0))
      | .tFloat, .bools xs => .ok (.pFloat (if xs.getD 0 false then 1 else 0))
      | .tUnicode, .bytes s => .ok (.pStr s)
      | .tNone, _ => .ok .pNone
      | _, _ => .error .unknownNodeType
    | .cdset shape _ hist => .ok (.pNdarray shape (assembleChunked shape hist))

/-
Top-level operations (write_hdf5 / read_hdf5).
-/

-- The `overwrite` argument: a bool or a string.
inductive OverwriteArg where
  | asBool (b : Bool)
  | asStr (s : HKey)

-- The h5py open mode selected by write_hdf5.
inductive FileMode where
  | modeW   -- 'w'
  | modeA   -- 'a'
  deriving DecidableEq

/-- Mode-selection and argument validation of write_hdf5 for a string
path (_h5io.py lines 118-127): `mode = 'w'`; only when the destination
file exists is `overwrite` consulted — a string other than 'update'
raises ValueError, 'update' switches to append mode, and a false bool
raises IOError. -/
def writeHdf5Mode (fileExists : Bool) (overwrite : OverwriteArg) : Except Err FileMode :=
  if fileExists then
    match overwrite with
    | .asStr s => if s ≠ updateChars then .error .badOverwriteArg else .ok .modeA
    | .asBool b => if ¬ b then .error .fileExistsErr else .ok .modeW
  else .ok .modeW

/-- The body of write_hdf5 once the file is open: a single
`_triage_write(title, data, fid, ...)` call with `key = title` (root). -/
def writeTop (fuel : Nat) (f : Children) (v : PyVal) (slash : WSlash) : Except Err Children :=
  triageWrite fuel hTitle v f slash true

/-- The body of read_hdf5 (lines 381-392): fail when the title is absent
(model groups always carry a TITLE attribute), else `_triage_read`. -/
def readTop (fuel : Nat) (f : Children) (slash : RSlash) : Except Err PyVal :=
  match lookupChild f hTitle with
  | none => .error .noData
  | some nd => triageRead fuel nd slash

/-
Claim-specific harness definitions.
-/

/-- Children of the group stored at `key`, for stating results about the
post-write tree ([] when absent or not a group). -/
def listChildren (root : Children) (key : HKey) : Children :=
  match lookupChild root key with
  | some (.group _ _ ch) => ch
  | _ => []

/-- Whether some fragment `(start, len)` in the list covers index `i`. -/
def coveredBy (frags : List (Nat × Nat)) (i : Nat) : Bool :=
  frags.any (fun p => decide (p.1 ≤ i ∧ i < p.1 + p.2))

/-- Sequentially write one chunked-list fragment per element of `frags`:
fragment `(s, l)` writes sub-values `M s, ..., M (s+l-1)` (slices of one
master sequence `M`) at start offset `s` with total logical size `size`,
exactly as the repository's chunked-list tests do (the first call uses
`overwrite=True` on a fresh file, later calls `overwrite='update'`; both
run the same `_triage_write` against the accumulated file state). -/
def writeChunkFrags (M : Nat → Int) (size : Nat) (frags : List (Nat × Nat))
    (f : Children) : Except Err Children :=
  frags.foldlM
    (fun f p =>
      writeTop 2 f (.pChunkedList ((List.range p.2).map (fun j => PyVal.pInt (M (p.1 + j)))) size p.1)
        .werror) f

/-
Pure mirrors of the write loops, used to state what the monadic folds
compute (every individual int write succeeds and is a `setChild`).
-/

/-- Result of writing the int values `vals` at `idx_<s>, idx_<s+1>, ...`. -/
def writeIntsPure : List Int → Nat → Children → Children
  | [], _, ch => ch
  | v :: rest, s, ch =>
      writeIntsPure rest (s + 1) (setChild ch (idxName s) (.dataset .tInt (.ints [v])))

/-- Result of writing the int entries `(k, v)` at `key_<k>`. -/
def writeDictIntsPure : List (HKey × Int) → Children → Children
  | [], ch => ch
  | e :: rest, ch =>
      writeDictIntsPure rest (setChild ch (keyName e.1) (.dataset .tInt (.ints [e.2])))

/-
Lemmas about the child-collection operations.
-/

theorem lookupChild_setChild_self (cs : Children) (k : HKey) (nd : Node) :
    lookupChild (setChild cs k nd) k = some nd := by
  induction cs with
  | nil => simp [setChild, lookupChild]
  | cons e rest ih =>
      by_cases h : e.1 = k
      · simp [setChild, lookupChild, h]
      · simp [setChild, lookupChild, h, ih]

theorem lookupChild_setChild_ne (cs : Children) (k k' : HKey) (nd : Node)
    (h : k' ≠ k) : lookupChild (setChild cs k nd) k' = lookupChild cs k' := by
  induction cs with
  | nil => simp [setChild, lookupChild, Ne.symm h]
  | cons e rest ih =>
      by_cases he : e.1 = k
      · subst he
        simp [setChild, lookupChild, Ne.symm h, h]
      · by_cases he' : e.1 = k'
        · simp [setChild, lookupChild, he, he', h]
        · simp [setChild, lookupChild, he, he', ih]

theorem lookupChild_delChild_self (cs : Children) (k : HKey) :
    lookupChild (delChild cs k) k = none := by
  induction cs with
  | nil => simp [delChild, lookupChild]
  | cons e rest ih =>
      by_cases h : e.1 = k
      · simp [delChild, h, ih]
      · simp [delChild, lookupChild, h, ih]

theorem lookupChild_delChild_ne (cs : Children) (k k' : HKey)
    (h : k' ≠ k) : lookupChild (delChild cs k) k' = lookupChild cs k' := by
  induction cs with
  | nil => simp [delChild, lookupChild]
  | cons e rest ih =>
      by_cases he : e.1 = k
      · subst he
        simp [delChild, lookupChild, Ne.symm h, ih]
      · by_cases he' : e.1 = k'
        · simp [delChild, lookupChild, he, he', h]
        · simp [delChild, lookupChild, he, he', ih]

theorem hasChild_iff_mem_fst (cs : Children) (k : HKey) :
    hasChild cs k = true ↔ k ∈ cs.map Prod.fst := by
  induction cs with
  | nil => simp [hasChild, lookupChild]
  | cons e rest ih =>
      by_cases h : e.1 = k
      · simp [hasChild, lookupChild, h]
      · simpa [hasChild, lookupChild, h, Ne.symm h] using ih

theorem fst_setChild_of_has (cs : Children) (k : HKey) (nd : Node)
    (h : hasChild cs k = true) :
    (setChild cs k nd).map Prod.fst = cs.map Prod.fst := by
  induction cs with
  | nil => simp [hasChild, lookupChild] at h
  | cons e rest ih =>
      by_cases he : e.1 = k
      · simp [setChild, he]
      · have hr : hasChild rest k = true := by
          simpa [hasChild, lookupChild, he] using h
        simp [setChild, he, ih hr]

theorem fst_setChild_of_not (cs : Children) (k : HKey) (nd : Node)
    (h : hasChild cs k = false) :
    (setChild cs k nd).map Prod.fst = cs.map Prod.fst ++ [k] := by
  induction cs with
  | nil => simp [setChild]
  | cons e rest ih =>
      by_cases he : e.1 = k
      · simp [hasChild, lookupChild, he] at h
      · have hr : hasChild rest k = false := by
          simpa [hasChild, lookupChild, he] using h
        simp [setChild, he, ih hr]

theorem fst_delChild (cs : Children) (k : HKey) :
    (delChild cs k).map Prod.fst = (cs.map Prod.fst).filter (fun x => x ≠ k) := by
  induction cs with
  | nil => simp [delChild]
  | cons e rest ih =>
      by_cases h : e.1 = k
      · simp [delChild, h, ih, List.filter_cons]
      · simp [delChild, h, ih, List.filter_cons]

theorem nodup_fst_setChild (cs : Children) (k : HKey) (nd : Node)
    (h : (cs.map Prod.fst).Nodup) : ((setChild cs k nd).map Prod.fst).Nodup := by
  cases hc : hasChild cs k
  · rw [fst_setChild_of_not cs k nd hc]
    have hk : k ∉ cs.map Prod.fst := by
      intro hmem
      rw [← hasChild_iff_mem_fst] at hmem
      simp [hc] at hmem
    simpa [List.concat_eq_append] using List.Nodup.concat hk h
  · rw [fst_setChild_of_has cs k nd hc]
    exact h

theorem nodup_fst_delChild (cs : Children) (k : HKey)
    (h : (cs.map Prod.fst).Nodup) : ((delChild cs k).map Prod.fst).Nodup := by
  rw [fst_delChild]
  exact h.filter _

/-
Lemmas about decimal child names.
-/

theorem natCharsAux_pos (fuel : Nat) : ∀ n, 0 < n → n < fuel →
    natCharsAux fuel n = ((Nat.digits 10 n).map Nat.digitChar).reverse := by
  induction fuel with
  | zero => intro n _ h; omega
  | succ fuel ih =>
      intro n hn hlt
      by_cases h10 : n < 10
      · rw [natCharsAux, if_pos h10]
        rw [Nat.digits_def' (by norm_num : 1 < 10) hn]
        have h0 : n / 10 = 0 := Nat.div_eq_of_lt h10
        rw [h0, Nat.digits_zero, Nat.mod_eq_of_lt h10]
        simp
      · rw [natCharsAux, if_neg h10]
        have hq : 0 < n / 10 := Nat.div_pos (by omega) (by norm_num)
        have hqlt : n / 10 < fuel := by
          have := Nat.div_lt_self hn (by norm_num : 1 < 10)
          omega
        rw [ih (n / 10) hq hqlt, Nat.digits_def' (by norm_num : 1 < 10) hn]
        simp

theorem natChars_zero : natChars 0 = ['0'] := rfl

theorem natChars_pos (n : Nat) (hn : 0 < n) :
    natChars n = ((Nat.digits 10 n).map Nat.digitChar).reverse :=
  natCharsAux_pos (n + 1) n hn (Nat.lt_succ_self n)

theorem digitChar_inj_lt : ∀ a < 10, ∀ b < 10, Nat.digitChar a = Nat.digitChar b → a = b := by
  decide

theorem map_digitChar_inj : ∀ (l l' : List Nat), (∀ d ∈ l, d < 10) → (∀ d ∈ l', d < 10) →
    l.map Nat.digitChar = l'.map Nat.digitChar → l = l' := by
  intro l
  induction l with
  | nil => intro l' _ _ h; cases l' <;> simp_all
  | cons d rest ih =>
      intro l' hl hl' h
      cases l' with
      | nil => simp at h
      | cons d' rest' =>
          simp only [List.map_cons, List.cons.injEq] at h
          have hd : d = d' :=
            digitChar_inj_lt d (hl d (by simp)) d' (hl' d' (by simp)) h.1
          have hr : rest = rest' :=
            ih rest' (fun x hx => hl x (by simp [hx])) (fun x hx => hl' x (by simp [hx])) h.2
          rw [hd, hr]

theorem natChars_inj {a b : Nat} (h : natChars a = natChars b) : a = b := by
  have digitsTo : ∀ x y : Nat, 0 < y → natChars x = natChars y →
      (Nat.digits 10 x).map Nat.digitChar = (Nat.digits 10 y).map Nat.digitChar →
      x = y := by
    intro x y _ _ hmap
    have hx : ∀ d ∈ Nat.digits 10 x, d < 10 := fun d hd =>
      Nat.digits_lt_base (by norm_num) hd
    have hy : ∀ d ∈ Nat.digits 10 y, d < 10 := fun d hd =>
      Nat.digits_lt_base (by norm_num) hd
    have hdg := map_digitChar_inj _ _ hx hy hmap
    calc x = Nat.ofDigits 10 (Nat.digits 10 x) := (Nat.ofDigits_digits 10 x).symm
    _ = Nat.ofDigits 10 (Nat.digits 10 y) := by rw [hdg]
    _ = y := Nat.ofDigits_digits 10 y
  rcases Nat.eq_zero_or_pos a with ha | ha
  · rcases Nat.eq_zero_or_pos b with hb | hb
    · omega
    · subst ha
      rw [natChars_zero, natChars_pos b hb] at h
      have hmap : (Nat.digits 10 b).map Nat.digitChar = ['0'] := by
        have := congrArg List.reverse h
        simpa using this.symm
      have hb0 : Nat.digits 10 b = [0] := by
        apply map_digitChar_inj
        · exact fun d hd => Nat.digits_lt_base (by norm_num) hd
        · intro d hd; simp at hd; omega
        · simpa using hmap
      have : b = Nat.ofDigits 10 [0] := by
        rw [← hb0, Nat.ofDigits_digits]
      simp [Nat.ofDigits] at this
      omega
  · rcases Nat.eq_zero_or_pos b with hb | hb
    · subst hb
      rw [natChars_zero, natChars_pos a ha] at h
      have hmap : (Nat.digits 10 a).map Nat.digitChar = ['0'] := by
        have := congrArg List.reverse h
        simpa using this
      have ha0 : Nat.digits 10 a = [0] := by
        apply map_digitChar_inj
        · exact fun d hd => Nat.digits_lt_base (by norm_num) hd
        · intro d hd; simp at hd; omega
        · simpa using hmap
      have : a = Nat.ofDigits 10 [0] := by
        rw [← ha0, Nat.ofDigits_digits]
      simp [Nat.ofDigits] at this
      omega
    · apply digitsTo a b hb h
      rw [natChars_pos a ha, natChars_pos b hb] at h
      exact List.reverse_injective h

theorem slash_not_mem_natCharsAux (fuel : Nat) : ∀ n, '/' ∉ natCharsAux fuel n := by
  induction fuel with
  | zero => intro n; simp [natCharsAux]
  | succ fuel ih =>
      intro n
      by_cases h10 : n < 10
      · rw [natCharsAux, if_pos h10]
        have hne : ∀ d < 10, Nat.digitChar d ≠ '/' := by decide
        simp [Ne.symm (hne n h10)]
      · rw [natCharsAux, if_neg h10]
        have hd : Nat.digitChar (n % 10) ≠ '/' := by
          have hne : ∀ d < 10, Nat.digitChar d ≠ '/' := by decide
          exact hne _ (Nat.mod_lt n (by norm_num))
        simp [ih, Ne.symm hd]

theorem slash_not_mem_idxName (i : Nat) : '/' ∉ idxName i := by
  simp only [idxName, idxMark, List.mem_append]
  rintro (h | h)
  · simp at h
  · exact slash_not_mem_natCharsAux _ i h

theorem idxName_inj {i j : Nat} (h : idxName i = idxName j) : i = j := by
  have := List.append_cancel_left h
  exact natChars_inj this

theorem slash_not_mem_keyName {k : HKey} (hk : '/' ∉ k) : '/' ∉ keyName k := by
  simp only [keyName, keyMark, List.mem_append]
  rintro (h | h)
  · simp at h
  · exact hk h

theorem keyName_inj {a b : HKey} (h : keyName a = keyName b) : a = b :=
  List.append_cancel_left h

theorem keyName_drop (k : HKey) : (keyName k).drop 4 = k := rfl

theorem keyMark_prefix_drop {name : HKey} (h : keyMark <+: name) :
    name = keyName (name.drop 4) := by
  obtain ⟨t, ht⟩ := h
  subst ht
  rfl

/-
What a single scalar-int write does, and what the dict/sequence write
loops therefore compute.
-/

theorem triageWrite_int (fuel : Nat) (name : HKey) (v : Int) (ch : Children)
    (slash : WSlash) (h : '/' ∉ name) :
    triageWrite (fuel + 1) name (.pInt v) ch slash false
      = .ok (setChild ch name (.dataset .tInt (.ints [v]))) := by
  have hcond : ¬ (¬false = true ∧ '/' ∈ name) := by simp [h]
  unfold triageWrite
  rw [if_neg hcond]
  rfl

theorem seqFoldInt (fuel : Nat) (slash : WSlash) :
    ∀ (vals : List Int) (s : Nat) (ch : Children),
    (List.enumFrom s (vals.map PyVal.pInt)).foldlM
        (fun ch e => triageWrite (fuel + 1) (idxName e.1) e.2 ch slash false) ch
      = .ok (writeIntsPure vals s ch) := by
  intro vals
  induction vals with
  | nil => intro s ch; rfl
  | cons v rest ih =>
      intro s ch
      have hstep :
          (List.enumFrom s ((v :: rest).map PyVal.pInt)).foldlM
              (fun ch e => triageWrite (fuel + 1) (idxName e.1) e.2 ch slash false) ch
            = (triageWrite (fuel + 1) (idxName s) (.pInt v) ch slash false).bind
                (fun ch' => (List.enumFrom (s + 1) (rest.map PyVal.pInt)).foldlM
                  (fun ch e => triageWrite (fuel + 1) (idxName e.1) e.2 ch slash false) ch') := rfl
      rw [hstep, triageWrite_int fuel (idxName s) v ch slash (slash_not_mem_idxName s)]
      rw [writeIntsPure]
      exact ih (s + 1) _

theorem dictFoldInt (fuel : Nat) (slash : WSlash) :
    ∀ (entries : List (HKey × Int)) (ch : Children),
    (∀ e ∈ entries, '/' ∉ e.1) →
    (entries.map (fun e => (e.1, PyVal.pInt e.2))).foldlM
        (fun ch e => triageWrite (fuel + 1) (keyMark ++ e.1) e.2 ch slash false) ch
      = .ok (writeDictIntsPure entries ch) := by
  intro entries
  induction entries with
  | nil => intro ch _; rfl
  | cons e rest ih =>
      intro ch hs
      have hstep :
          ((e :: rest).map (fun e => (e.1, PyVal.pInt e.2))).foldlM
              (fun ch e => triageWrite (fuel + 1) (keyMark ++ e.1) e.2 ch slash false) ch
            = (triageWrite (fuel + 1) (keyMark ++ e.1) (.pInt e.2) ch slash false).bind
                (fun ch' => (rest.map (fun e => (e.1, PyVal.pInt e.2))).foldlM
                  (fun ch e => triageWrite (fuel + 1) (keyMark ++ e.1) e.2 ch slash false) ch') := rfl
      have hek : '/' ∉ keyMark ++ e.1 := slash_not_mem_keyName (hs e (by simp))
      rw [hstep, triageWrite_int fuel (keyMark ++ e.1) e.2 ch slash hek]
      rw [show (keyMark ++ e.1) = keyName e.1 from rfl, writeDictIntsPure]
      exact ih _ (fun x hx => hs x (by simp [hx]))

theorem lookup_writeIntsPure_idx :
    ∀ (vals : List Int) (s : Nat) (ch : Children) (i : Nat),
    lookupChild (writeIntsPure vals s ch) (idxName i)
      = if s ≤ i ∧ i < s + vals.length
        then some (.dataset .tInt (.ints [vals.getD (i - s) 0]))
        else lookupChild ch (idxName i) := by
  intro vals
  induction vals with
  | nil =>
      intro s ch i
      rw [writeIntsPure, if_neg (by simp only [List.length_nil]; omega)]
  | cons v rest ih =>
      intro s ch i
      rw [writeIntsPure, ih]
      by_cases hi : s ≤ i ∧ i < s + (v :: rest).length
      · by_cases hs : i = s
        · subst hs
          rw [if_neg (by omega), lookupChild_setChild_self, if_pos hi]
          simp
        · have h1 : s + 1 ≤ i ∧ i < s + 1 + rest.length := by
            simp only [List.length_cons] at hi
            omega
          rw [if_pos h1, if_pos hi]
          have harith : i - s = (i - (s + 1)) + 1 := by omega
          rw [harith]
          simp
      · have h1 : ¬ (s + 1 ≤ i ∧ i < s + 1 + rest.length) := by
          simp only [List.length_cons] at hi
          omega
        have hne : idxName i ≠ idxName s := by
          intro he
          have h2 := idxName_inj he
          subst h2
          simp only [List.length_cons] at hi
          omega
        rw [if_neg h1, lookupChild_setChild_ne ch (idxName s) (idxName i) _ hne, if_neg hi]

theorem lookup_writeIntsPure_other :
    ∀ (vals : List Int) (s : Nat) (ch : Children) (name : HKey),
    (∀ j, name ≠ idxName j) →
    lookupChild (writeIntsPure vals s ch) name = lookupChild ch name := by
  intro vals
  induction vals with
  | nil => intro s ch name _; rfl
  | cons v rest ih =>
      intro s ch name h
      rw [writeIntsPure, ih _ _ _ h, lookupChild_setChild_ne ch _ name _ (h s)]

theorem fst_writeIntsPure_of_has :
    ∀ (vals : List Int) (s : Nat) (ch : Children),
    (∀ j, j < vals.length → hasChild ch (idxName (s + j)) = true) →
    (writeIntsPure vals s ch).map Prod.fst = ch.map Prod.fst := by
  intro vals
  induction vals with
  | nil => intro s ch _; rfl
  | cons v rest ih =>
      intro s ch h
      have h0 : hasChild ch (idxName s) = true := by
        have := h 0 (by simp)
        simpa using this
      have hset := fst_setChild_of_has ch (idxName s) (.dataset .tInt (.ints [v])) h0
      rw [writeIntsPure, ih (s + 1) _, hset]
      intro j hj
      rw [hasChild_iff_mem_fst, hset, ← hasChild_iff_mem_fst]
      have := h (j + 1) (by simpa using Nat.succ_lt_succ hj)
      have harith : s + (j + 1) = s + 1 + j := by omega
      rwa [harith] at this

theorem nodup_fst_writeIntsPure :
    ∀ (vals : List Int) (s : Nat) (ch : Children),
    (ch.map Prod.fst).Nodup → ((writeIntsPure vals s ch).map Prod.fst).Nodup := by
  intro vals
  induction vals with
  | nil => intro s ch h; exact h
  | cons v rest ih =>
      intro s ch h
      rw [writeIntsPure]
      exact ih _ _ (nodup_fst_setChild ch _ _ h)

theorem has_setChild_imp (cs : Children) (k name : HKey) (nd : Node)
    (h : hasChild (setChild cs k nd) name = true) :
    name = k ∨ hasChild cs name = true := by
  by_cases he : name = k
  · exact Or.inl he
  · right
    rw [hasChild] at h ⊢
    rwa [lookupChild_setChild_ne cs k name nd he] at h

theorem lookup_writeDictIntsPure_other :
    ∀ (entries : List (HKey × Int)) (ch : Children) (name : HKey),
    (∀ e ∈ entries, name ≠ keyName e.1) →
    lookupChild (writeDictIntsPure entries ch) name = lookupChild ch name := by
  intro entries
  induction entries with
  | nil => intro ch name _; rfl
  | cons e rest ih =>
      intro ch name h
      rw [writeDictIntsPure, ih _ _ (fun x hx => h x (by simp [hx])),
        lookupChild_setChild_ne ch _ name _ (h e (by simp))]

theorem lookup_writeDictIntsPure_mem :
    ∀ (entries : List (HKey × Int)) (ch : Children) (k : HKey) (v : Int),
    (entries.map Prod.fst).Nodup → (k, v) ∈ entries →
    lookupChild (writeDictIntsPure entries ch) (keyName k)
      = some (.dataset .tInt (.ints [v])) := by
  intro entries
  induction entries with
  | nil => intro ch k v _ hm; simp at hm
  | cons e rest ih =>
      intro ch k v hnd hm
      rw [writeDictIntsPure]
      rcases List.mem_cons.mp hm with he | hr
      · subst he
        have hnotin : ∀ x ∈ rest, keyName k ≠ keyName x.1 := by
          intro x hx he'
          have hx1 : x.1 = k := (keyName_inj he').symm
          simp only [List.map_cons, List.nodup_cons] at hnd
          exact hnd.1 (by simpa [hx1] using List.mem_map_of_mem Prod.fst hx)
        rw [lookup_writeDictIntsPure_other rest _ _ hnotin]
        exact lookupChild_setChild_self ch (keyName k) _
      · apply ih _ _ _ _ hr
        simp only [List.map_cons, List.nodup_cons] at hnd
        exact hnd.2

theorem has_writeDictIntsPure_imp :
    ∀ (entries : List (HKey × Int)) (ch : Children) (name : HKey),
    hasChild (writeDictIntsPure entries ch) name = true →
    hasChild ch name = true ∨ ∃ e ∈ entries, name = keyName e.1 := by
  intro entries
  induction entries with
  | nil => intro ch name h; exact Or.inl h
  | cons e rest ih =>
      intro ch name h
      rw [writeDictIntsPure] at h
      rcases ih _ _ h with hset | ⟨x, hx, hnx⟩
      · rcases has_setChild_imp ch (keyName e.1) name _ hset with he | hch
        · exact Or.inr ⟨e, by simp, he⟩
        · exact Or.inl hch
      · exact Or.inr ⟨x, by simp [hx], hnx⟩

theorem nodup_fst_writeDictIntsPure :
    ∀ (entries : List (HKey × Int)) (ch : Children),
    (ch.map Prod.fst).Nodup → ((writeDictIntsPure entries ch).map Prod.fst).Nodup := by
  intro entries
  induction entries with
  | nil => intro ch h; exact h
  | cons e rest ih =>
      intro ch h
      rw [writeDictIntsPure]
      exact ih _ (nodup_fst_setChild ch _ _ h)

theorem fst_deleteTrailing_sub :
    ∀ (fuel i : Nat) (ch : Children) (name : HKey),
    name ∈ (deleteTrailing ch i fuel).map Prod.fst → name ∈ ch.map Prod.fst := by
  intro fuel
  induction fuel with
  | zero => intro i ch name h; exact h
  | succ fuel ih =>
      intro i ch name h
      rw [deleteTrailing] at h
      by_cases hc : hasChild ch (idxName i) = true
      · rw [if_pos hc] at h
        have := ih _ _ _ h
        rw [fst_delChild] at this
        exact (List.mem_filter.mp this).1
      · rwa [if_neg hc] at h

theorem nodup_fst_deleteTrailing :
    ∀ (fuel i : Nat) (ch : Children),
    (ch.map Prod.fst).Nodup → ((deleteTrailing ch i fuel).map Prod.fst).Nodup := by
  intro fuel
  induction fuel with
  | zero => intro i ch h; exact h
  | succ fuel ih =>
      intro i ch h
      rw [deleteTrailing]
      by_cases hc : hasChild ch (idxName i) = true
      · rw [if_pos hc]
        exact ih _ _ (nodup_fst_delChild ch _ h)
      · rwa [if_neg hc]

theorem dictPrune_cons_werror (n0 : HKey) (rest : List HKey)
    (pv : List (HKey × PyVal)) (ch : Children) :
    dictPrune (n0 :: rest) pv .werror ch
      = if pv.any (fun e => e.1 = n0.drop 4) then dictPrune rest pv .werror ch
        else if hasChild ch n0 then dictPrune rest pv .werror (delChild ch n0)
        else .error .keyError := rfl

theorem lookup_dictPrune_werror :
    ∀ (names : List HKey) (pv : List (HKey × PyVal)) (ch : Children),
    names.Nodup → (∀ n ∈ names, hasChild ch n = true) →
    ∃ ch', dictPrune names pv .werror ch = .ok ch'
      ∧ (∀ name, lookupChild ch' name
          = if name ∈ names ∧ pv.any (fun e => e.1 = name.drop 4) = false then none
            else lookupChild ch name)
      ∧ ((ch.map Prod.fst).Nodup → (ch'.map Prod.fst).Nodup) := by
  intro names
  induction names with
  | nil =>
      intro pv ch _ _
      exact ⟨ch, rfl, fun name => by rw [if_neg (by simp)], fun h => h⟩
  | cons n0 rest ih =>
      intro pv ch hnd hhas
      have hnd0 : n0 ∉ rest := (List.nodup_cons.mp hnd).1
      have hndr : rest.Nodup := (List.nodup_cons.mp hnd).2
      by_cases hkeep : pv.any (fun e => e.1 = n0.drop 4) = true
      · obtain ⟨ch', heq, hlk, hnd'⟩ :=
          ih pv ch hndr (fun n hn => hhas n (List.mem_cons_of_mem n0 hn))
        refine ⟨ch', ?_, ?_, hnd'⟩
        · rw [dictPrune_cons_werror, if_pos hkeep, heq]
        · intro name
          rw [hlk name]
          by_cases hmemany : name ∈ rest ∧ pv.any (fun e => e.1 = name.drop 4) = false
          · rw [if_pos hmemany, if_pos ⟨List.mem_cons_of_mem n0 hmemany.1, hmemany.2⟩]
          · have hrneg : ¬ (name ∈ n0 :: rest ∧
                pv.any (fun e => e.1 = name.drop 4) = false) := by
              rintro ⟨hc, ha⟩
              rcases List.mem_cons.mp hc with h | h
              · subst h
                rw [hkeep] at ha
                exact Bool.noConfusion ha
              · exact hmemany ⟨h, ha⟩
            rw [if_neg hmemany, if_neg hrneg]
      · have hpres : hasChild ch n0 = true := hhas n0 (List.mem_cons_self n0 rest)
        obtain ⟨ch', heq, hlk, hnd'⟩ :=
          ih pv (delChild ch n0) hndr (fun n hn => by
            have hne : n ≠ n0 := fun he => hnd0 (he ▸ hn)
            rw [hasChild, lookupChild_delChild_ne ch n0 n hne, ← hasChild]
            exact hhas n (List.mem_cons_of_mem n0 hn))
        refine ⟨ch', ?_, ?_, fun hch => hnd' (nodup_fst_delChild ch n0 hch)⟩
        · rw [dictPrune_cons_werror, if_neg hkeep, if_pos hpres, heq]
        · intro name
          rw [hlk name]
          by_cases hname : name = n0
          · subst hname
            rw [if_neg (fun hc => hnd0 hc.1), lookupChild_delChild_self,
              if_pos ⟨List.mem_cons_self name rest, eq_false_of_ne_true hkeep⟩]
          · by_cases hmemany : name ∈ rest ∧ pv.any (fun e => e.1 = name.drop 4) = false
            · rw [if_pos hmemany, if_pos ⟨List.mem_cons_of_mem n0 hmemany.1, hmemany.2⟩]
            · have hrneg : ¬ (name ∈ n0 :: rest ∧
                  pv.any (fun e => e.1 = name.drop 4) = false) := by
                rintro ⟨hc, ha⟩
                rcases List.mem_cons.mp hc with h | h
                · exact hname h
                · exact hmemany ⟨h, ha⟩
              rw [if_neg hmemany, lookupChild_delChild_ne ch n0 name hname, if_neg hrneg]

/-
Lemmas about the slash escape substitution and its inverse.
-/

theorem unescapeKeyGo_insensitive :
    ∀ (f1 f2 : Nat) (k : HKey), k.length ≤ f1 → k.length ≤ f2 →
    unescapeKeyGo f1 k = unescapeKeyGo f2 k := by
  intro f1
  induction f1 with
  | zero =>
      intro f2 k h1 _
      have : k = [] := List.eq_nil_of_length_eq_zero (by omega)
      subst this
      cases f2 <;> rfl
  | succ f1 ih =>
      intro f2 k h1 h2
      cases k with
      | nil => cases f2 <;> rfl
      | cons c rest =>
          cases f2 with
          | zero => simp at h2
          | succ f2 =>
              rw [unescapeKeyGo, unescapeKeyGo]
              by_cases hp : fwdslashToken.isPrefixOf (c :: rest) = true
              · rw [if_pos hp, if_pos hp]
                have hd : (rest.drop 9).length ≤ f1 := by
                  rw [List.length_drop]
                  simp at h1
                  omega
                have hd2 : (rest.drop 9).length ≤ f2 := by
                  rw [List.length_drop]
                  simp at h2
                  omega
                rw [ih f2 _ hd hd2]
              · rw [if_neg hp, if_neg hp]
                have hr : rest.length ≤ f1 := by simp at h1; omega
                have hr2 : rest.length ≤ f2 := by simp at h2; omega
                rw [ih f2 rest hr hr2]

theorem unescapeKey_cons_token (x : HKey) :
    unescapeKey (fwdslashToken ++ x) = '/' :: unescapeKey x := by
  have hpre : fwdslashToken.isPrefixOf (fwdslashToken ++ x) = true := by
    rw [show fwdslashToken ++ x
        = '{' :: (['F', 'W', 'D', 'S', 'L', 'A', 'S', 'H', '}'] ++ x) from rfl]
    cases x <;> simp [fwdslashToken, List.isPrefixOf]
  have hlen : (fwdslashToken ++ x).length = x.length + 9 + 1 := by
    simp [fwdslashToken]
  rw [unescapeKey, hlen]
  rw [show fwdslashToken ++ x
      = '{' :: (['F', 'W', 'D', 'S', 'L', 'A', 'S', 'H', '}'] ++ x) from rfl]
  rw [unescapeKeyGo, if_pos (by
    rw [show ('{' : Char) :: (['F', 'W', 'D', 'S', 'L', 'A', 'S', 'H', '}'] ++ x)
        = fwdslashToken ++ x from rfl]
    exact hpre)]
  rw [show ((['F', 'W', 'D', 'S', 'L', 'A', 'S', 'H', '}'] : List Char) ++ x).drop 9
      = x from rfl]
  rw [unescapeKey]
  exact congrArg _ (unescapeKeyGo_insensitive _ _ x (by omega) (Nat.le_refl _))

theorem unescapeKey_cons_of_not (c : Char) (y : HKey)
    (h : fwdslashToken.isPrefixOf (c :: y) = false) :
    unescapeKey (c :: y) = c :: unescapeKey y := by
  rw [unescapeKey]
  have hl : (c :: y).length = y.length + 1 := rfl
  rw [hl, unescapeKeyGo, if_neg (by simp [h])]
  rfl

theorem noBraceSlashPrefix :
    ∀ (t : List Char), (∀ a ∈ t, a ≠ '/' ∧ a ≠ '{') →
    ∀ (r : HKey), t.isPrefixOf (escapeKey r) = true → t.isPrefixOf r = true := by
  intro t
  induction t with
  | nil => intro _ r _; cases r <;> rfl
  | cons a t' ih =>
      intro hch r hpre
      cases r with
      | nil => simp [escapeKey, List.isPrefixOf] at hpre
      | cons d r' =>
          by_cases hd : d = '/'
          · subst hd
            rw [escapeKey, if_pos rfl] at hpre
            have ha : a ≠ '{' := (hch a (by simp)).2
            simp [fwdslashToken, List.isPrefixOf, ha] at hpre
          · rw [escapeKey, if_neg hd] at hpre
            simp only [List.isPrefixOf, Bool.and_eq_true, beq_iff_eq] at hpre ⊢
            exact ⟨hpre.1, ih (fun x hx => hch x (by simp [hx])) r' hpre.2⟩

theorem containsToken_cons_split {c : Char} {rest : HKey}
    (h : containsToken (c :: rest) = false) :
    fwdslashToken.isPrefixOf (c :: rest) = false ∧ containsToken rest = false := by
  rw [containsToken, Bool.or_eq_false_iff] at h
  exact h

theorem unescape_escape_of_tokenFree :
    ∀ (k : HKey), containsToken k = false → unescapeKey (escapeKey k) = k := by
  intro k
  induction k with
  | nil => intro _; rfl
  | cons c rest ih =>
      intro hk
      obtain ⟨hp, hrest⟩ := containsToken_cons_split hk
      by_cases hc : c = '/'
      · subst hc
        rw [escapeKey, if_pos rfl, unescapeKey_cons_token, ih hrest]
      · rw [escapeKey, if_neg hc]
        have hpre : fwdslashToken.isPrefixOf (c :: escapeKey rest) = false := by
          by_contra htrue
          have htrue' : fwdslashToken.isPrefixOf (c :: escapeKey rest) = true := by
            revert htrue
            cases fwdslashToken.isPrefixOf (c :: escapeKey rest) <;> simp
          rw [show fwdslashToken
              = '{' :: ['F', 'W', 'D', 'S', 'L', 'A', 'S', 'H', '}'] from rfl] at htrue'
          simp only [List.isPrefixOf, Bool.and_eq_true, beq_iff_eq] at htrue'
          obtain ⟨hcb, htl⟩ := htrue'
          have htl' : (['F', 'W', 'D', 'S', 'L', 'A', 'S', 'H', '}'] : List Char).isPrefixOf rest
              = true :=
            noBraceSlashPrefix _ (by decide) rest htl
          subst hcb
          have : fwdslashToken.isPrefixOf ('{' :: rest) = true := by
            rw [show fwdslashToken
                = '{' :: ['F', 'W', 'D', 'S', 'L', 'A', 'S', 'H', '}'] from rfl]
            simp [List.isPrefixOf, htl']
          rw [this] at hp
          simp at hp
        rw [unescapeKey_cons_of_not c _ hpre, ih hrest]

theorem unescape_append_nobrace :
    ∀ (s x : HKey), (∀ a ∈ s, a ≠ '{') →
    unescapeKey (s ++ x) = s ++ unescapeKey x := by
  intro s
  induction s with
  | nil => intro x _; rfl
  | cons a s' ih =>
      intro x hs
      have ha : a ≠ '{' := hs a (by simp)
      have hpre : fwdslashToken.isPrefixOf (a :: (s' ++ x)) = false := by
        rw [show fwdslashToken
            = '{' :: ['F', 'W', 'D', 'S', 'L', 'A', 'S', 'H', '}'] from rfl]
        simp [List.isPrefixOf, Ne.symm ha]
      rw [List.cons_append, unescapeKey_cons_of_not a _ hpre,
        ih x (fun b hb => hs b (by simp [hb]))]
      rfl

theorem escapeKey_append (a b : HKey) :
    escapeKey (a ++ b) = escapeKey a ++ escapeKey b := by
  induction a with
  | nil => rfl
  | cons c rest ih =>
      by_cases hc : c = '/'
      · subst hc
        rw [List.cons_append, escapeKey, if_pos rfl, escapeKey, if_pos rfl, ih,
          List.append_assoc]
      · rw [List.cons_append, escapeKey, if_neg hc, escapeKey, if_neg hc, ih,
          List.cons_append]

theorem escapeKey_no_slash : ∀ (a : HKey), '/' ∉ a → escapeKey a = a := by
  intro a
  induction a with
  | nil => intro _; rfl
  | cons c rest ih =>
      intro h
      have hc : c ≠ '/' := by
        intro he
        exact h (by simp [he])
      rw [escapeKey, if_neg hc, ih (fun hm => h (by simp [hm]))]

/-
Lemmas for the multiarray codec.
-/

theorem indexSumAux_eq : ∀ (l : List Nat) (acc : List Nat),
    indexSumAux acc l = acc ++ (cumulLens l).map (· + acc.getLast?.getD 0) := by
  intro l
  induction l with
  | nil => intro acc; simp [indexSumAux, cumulLens]
  | cons x rest ih =>
      intro acc
      rw [indexSumAux, ih, cumulLens]
      have hlast : (acc ++ [acc.getLast?.getD 0 + x]).getLast?.getD 0
          = acc.getLast?.getD 0 + x := by
        rw [List.getLast?_concat]
        rfl
      rw [hlast, List.append_assoc, List.singleton_append, List.map_cons]
      congr 1
      congr 1
      · omega
      · rw [List.map_map]
        apply List.map_congr_left
        intro z _
        simp only [Function.comp_apply]
        omega

theorem index_sum_eq_cumul (l : List Nat) : index_sum l = cumulLens l := by
  rw [index_sum, indexSumAux_eq]
  simp

theorem multiarrayLoadGo_spec :
    ∀ (a : List (List Int)) (pre : List Int), a ≠ [] →
    multiarrayLoadGo (pre ++ a.flatten) pre.length
        (((cumulLens (a.map List.length)).map (· + pre.length)).dropLast) = a := by
  intro a
  induction a with
  | nil => intro pre h; exact absurd rfl h
  | cons x rest ih =>
      intro pre _
      cases rest with
      | nil => simp [cumulLens, multiarrayLoadGo, List.drop_left]
      | cons y rest' =>
          have hcum : cumulLens ((x :: y :: rest').map List.length)
              = x.length :: (cumulLens ((y :: rest').map List.length)).map (· + x.length) := by
            rw [List.map_cons, cumulLens]
          rw [hcum]
          have hmapstep : ((x.length :: (cumulLens ((y :: rest').map List.length)).map
                (· + x.length)).map (· + pre.length))
              = (x.length + pre.length) ::
                (cumulLens ((y :: rest').map List.length)).map (· + (pre.length + x.length)) := by
            rw [List.map_cons, List.map_map]
            congr 1
            apply List.map_congr_left
            intro z _
            simp only [Function.comp_apply]
            omega
          rw [hmapstep]
          have hne : (cumulLens ((y :: rest').map List.length)).map
              (· + (pre.length + x.length)) ≠ [] := by
            rw [List.map_cons, cumulLens]
            simp
          rw [List.dropLast_cons_of_ne_nil hne]
          rw [multiarrayLoadGo]
          have hmerge : pre ++ (x :: y :: rest').flatten
              = (pre ++ x) ++ (y :: rest').flatten := by
            rw [List.flatten_cons, List.append_assoc]
          rw [hmerge]
          have hslice : (((pre ++ x) ++ (y :: rest').flatten).take
                (x.length + pre.length)).drop pre.length = x := by
            have hlen : x.length + pre.length = (pre ++ x).length := by
              rw [List.length_append]
              omega
            rw [hlen, List.take_left, List.drop_left]
          rw [hslice]
          congr 1
          have hpos : x.length + pre.length = (pre ++ x).length := by
            rw [List.length_append]
            omega
          rw [hpos]
          have harg : (cumulLens ((y :: rest').map List.length)).map
                (· + (pre.length + x.length))
              = (cumulLens ((y :: rest').map List.length)).map (· + (pre ++ x).length) := by
            rw [List.length_append]
          rw [harg]
          exact ih (pre ++ x) (by simp)

/-
Claim theorems.
-/

/-- C1: writing the mapping a ↦ 1, b ↦ [1,2,3] to a fresh destination and
reading it back returns the same mapping, with the value at b reconstructed
as a list (`pList`, not `pTuple`) and the value at a as an int (`pInt`, not
`pFloat`). -/
theorem spec_c1_roundtrip_example :
    (writeTop 3 [] (.pDict [(['a'], .pInt 1),
        (['b'], .pList [.pInt 1, .pInt 2, .pInt 3])]) .werror).bind
      (fun f => readTop 3 f .rignore)
    = .ok (.pDict [(['a'], .pInt 1), (['b'], .pList [.pInt 1, .pInt 2, .pInt 3])]) := rfl

/-- C10: a Python bool is handled by the `isinstance(value, (int, float))`
branch (there is no separate bool branch): it is stored as a length-1
buffer tagged 'int', and a subsequent read returns `int(b)` — reading back
a written `True` yields the int 1, and `False` yields 0. Both booleans are
covered. -/
theorem spec_c10_bool_int_branch :
    (writeTop 2 [] (.pBool true) .werror
        = .ok [(hTitle, .dataset .tInt (.bools [true]))]
      ∧ (writeTop 2 [] (.pBool true) .werror).bind (fun f => readTop 2 f .rignore)
        = .ok (.pInt 1))
    ∧ (writeTop 2 [] (.pBool false) .werror
        = .ok [(hTitle, .dataset .tInt (.bools [false]))]
      ∧ (writeTop 2 [] (.pBool false) .werror).bind (fun f => readTop 2 f .rignore)
        = .ok (.pInt 0)) :=
  ⟨⟨rfl, rfl⟩, ⟨rfl, rfl⟩⟩

/-- C5: the repository's own 2D chunked-array scenario (shape `(3, 2*N)`
with `N = 1`, chunk size `(3, 2)`, chunk index 0, exactly as
`test_chunked_array_2d` builds them) cannot even construct the fragment:
`ChunkedArray.__init__` indexes `chunk_size[2]` and `shape[2]`, which
raises IndexError on a 2-tuple, instead of writing/assembling the array as
the claim (and the repository's tests) require. -/
theorem spec_c5_chunked_2d_index_error :
    chunkedArrayMake [3, 2] [1, 2, 3, 4, 5, 6] [3, 2] [3, 2] 0
      = .error .indexError := rfl

/-- C9 counterexample: with a non-existing destination and
`overwrite = 'bogus'` (a string other than 'update'), write_hdf5 selects
mode 'w' and does not fail, contradicting the claim that a string other
than "update" always fails with an invalid-argument error. -/
theorem spec_c9_counterexample :
    writeHdf5Mode false (.asStr ['b', 'o', 'g', 'u', 's']) = .ok .modeW
      ∧ (['b', 'o', 'g', 'u', 's'] : HKey) ≠ updateChars :=
  ⟨rfl, by decide⟩

/-- C9 (amended): when the destination exists, write_hdf5 fails with the
invalid-argument error for every overwrite string other than 'update', and
with the file-exists error when overwrite is the bool False; the overwrite
argument is not validated when the destination does not exist. -/
theorem spec_c9_overwrite_amended (s : HKey) (h : s ≠ updateChars) :
    writeHdf5Mode true (.asStr s) = .error .badOverwriteArg
      ∧ writeHdf5Mode true (.asBool false) = .error .fileExistsErr := by
  constructor
  · simp [writeHdf5Mode, h]
  · rfl

/-- Witness for C9: the amended theorem applied at overwrite = 'bogus'. -/
theorem spec_c9_overwrite_amended_witness :
    writeHdf5Mode true (.asStr ['b', 'o', 'g', 'u', 's']) = .error .badOverwriteArg
      ∧ writeHdf5Mode true (.asBool false) = .error .fileExistsErr :=
  spec_c9_overwrite_amended ['b', 'o', 'g', 'u', 's'] (by decide)

/-- C4: when a chunked dataset already exists at the key, a fragment whose
declared shape differs from the stored shape, or whose declared chunk size
differs from the stored chunk geometry, makes the write fail with the
corresponding mismatch error instead of writing the chunk (the state is
returned unchanged only inside `.ok`; an error writes nothing). -/
theorem spec_c4_geometry_mismatch (root : Children) (key : HKey) (ca : ChunkedArrayV)
    (s c : List Nat) (hist : List CAWrite)
    (hlk : lookupChild root key = some (.cdset s c hist))
    (hne : s ≠ ca.shape ∨ c ≠ ca.chunk_size) :
    createWriteChunkedArray root key ca = .error .storedShapeMismatch
      ∨ createWriteChunkedArray root key ca = .error .storedChunkSizeMismatch := by
  rcases hne with hs | hc
  · left
    simp [createWriteChunkedArray, hlk, hs]
  · by_cases hs : s = ca.shape
    · right
      simp [createWriteChunkedArray, hlk, hs, hc]
    · left
      simp [createWriteChunkedArray, hlk, hs]

/-- Witness for C4: a stored `(3,2,6)` dataset rejects a fragment declaring
shape `(3,2,8)` (same chunk geometry). -/
theorem spec_c4_geometry_mismatch_witness :
    createWriteChunkedArray [(hTitle, .cdset [3, 2, 6] [3, 2, 2] [])] hTitle
        ⟨[3, 2, 2], List.replicate 12 0, [3, 2, 8], [3, 2, 2], 0, 0, 2⟩
      = .error .storedShapeMismatch
      ∨ createWriteChunkedArray [(hTitle, .cdset [3, 2, 6] [3, 2, 2] [])] hTitle
        ⟨[3, 2, 2], List.replicate 12 0, [3, 2, 8], [3, 2, 2], 0, 0, 2⟩
      = .error .storedChunkSizeMismatch :=
  spec_c4_geometry_mismatch _ _ _ _ _ _ rfl (Or.inl (by decide))

/-- C7: for every nonempty ragged array-of-arrays (whose elements share
the element type by construction and whose 1-D sub-shapes trivially agree
on all trailing dimensions), `multiarray_load` of `multiarray_dump` is the
identity. -/
theorem spec_c7_multiarray_inverse (a : List (List Int)) (h : a ≠ []) :
    (multiarray_dump a).map (fun p => multiarray_load p.1 p.2) = .ok a := by
  have hval : validateObjectArray a = .ok () := by
    rw [validateObjectArray, if_neg (by simpa using h)]
  rw [multiarray_dump, hval]
  show Except.ok (multiarray_load (index_sum (arrayIndex (shapeList a))) (merge_array a))
      = .ok a
  have hx : index_sum (arrayIndex (shapeList a)) = cumulLens (a.map List.length) := by
    rw [index_sum_eq_cumul]
    rfl
  rw [multiarray_load, hx]
  have := multiarrayLoadGo_spec a [] h
  simpa [merge_array] using this

/-- Witness for C7: the inverse law at a concrete ragged array. -/
theorem spec_c7_multiarray_inverse_witness :
    (multiarray_dump [[1, 2], [3], [4, 5, 6]]).map (fun p => multiarray_load p.1 p.2)
      = .ok [[1, 2], [3], [4, 5, 6]] :=
  spec_c7_multiarray_inverse [[1, 2], [3], [4, 5, 6]] (by simp)

/-
Support for the list/dict shrink claims.
-/

theorem listChildren_setChild (root : Children) (key : HKey) (t : Tag)
    (sz : Option Nat) (ch : Children) :
    listChildren (setChild root key (.group t sz ch)) key = ch := by
  rw [listChildren, lookupChild_setChild_self]

theorem triageWrite_list_root (fuel : Nat) (key : HKey) (xs : List PyVal)
    (root : Children) (slash : WSlash) :
    triageWrite (fuel + 1) key (.pList xs) root slash true
      = ((List.enumFrom 0 xs).foldlM
          (fun ch e => triageWrite fuel (idxName e.1) e.2 ch slash false)
          ((getSubRoot root key .tList).1)).bind
        (fun ch1 => .ok (setChild root key
          (.group .tList none (deleteTrailing ch1 xs.length (ch1.length + 1))))) := by
  have hcond : ¬ (¬True ∧ '/' ∈ key) := by simp
  simp only [triageWrite]
  rw [if_neg hcond]
  rfl

theorem idxName_injective : Function.Injective idxName := fun _ _ h => idxName_inj h

theorem idx_names_nodup (n : Nat) : ((List.range n).map idxName).Nodup :=
  (List.nodup_range n).map idxName_injective

/-- C2: refuted as stated — the deletion loop of the list branch
(_h5io.py lines 219-225) never increments its probe index `ii`, so after
deleting `idx_<len(value)>` it re-probes the same name, finds it absent
and breaks: at most one trailing child is ever deleted, not every child
with index ≥ the new length. Writing the 2-element list [10, 20] over a
key that stores a 5-element list group leaves the four children idx_0,
idx_1, idx_3 and idx_4 (only idx_2 is deleted) — not the two children
the claim requires. -/
theorem spec_c2_list_shrink_broken :
    (triageWrite 2 hTitle (.pList (([10, 20] : List Int).map PyVal.pInt))
        [(hTitle, .group .tList none
          [(idxName 0, .dataset .tInt (.ints [1])),
           (idxName 1, .dataset .tInt (.ints [2])),
           (idxName 2, .dataset .tInt (.ints [3])),
           (idxName 3, .dataset .tInt (.ints [4])),
           (idxName 4, .dataset .tInt (.ints [5]))])] .werror true).map
        (fun r => ((listChildren r hTitle).map Prod.fst,
                   (listChildren r hTitle).length))
      = .ok ([idxName 0, idxName 1, idxName 3, idxName 4], 4) := rfl

theorem triageWrite_dict_root (fuel : Nat) (key : HKey) (entries : List (HKey × PyVal))
    (root : Children) (slash : WSlash) :
    triageWrite (fuel + 1) key (.pDict entries) root slash true
      = (entries.foldlM
          (fun ch e => triageWrite fuel (keyMark ++ e.1) e.2 ch slash false)
          ((getSubRoot root key .tDict).1)).bind
        (fun ch1 => (dictPrune (ch1.map Prod.fst) entries slash ch1).bind
          (fun ch2 => .ok (setChild root key (.group .tDict none ch2)))) := by
  have hcond : ¬ (¬True ∧ '/' ∈ key) := by simp
  simp only [triageWrite]
  rw [if_neg hcond]
  rfl

theorem keyName_injective : Function.Injective keyName := fun _ _ h => keyName_inj h

/-- C3: after writing a mapping of ints at a key that already stores a
dict group (whose child names all carry the `key_` prefix, as every stored
dict's do), the group's children are exactly `key_<k>` for the keys k of
the current mapping: the reconciliation pass deletes every pre-existing
child whose decoded key is absent from the mapping, so the child-name set
is the image of the current keys and the child count equals the number of
entries. -/
theorem spec_c3_dict_shrink (fuel : Nat) (key : HKey) (root : Children)
    (ch0 : Children) (entries : List (HKey × Int))
    (hlk : lookupChild root key = some (.group .tDict none ch0))
    (hpre : ∀ p ∈ ch0, keyMark <+: p.1)
    (hnd0 : (ch0.map Prod.fst).Nodup)
    (hkeys : (entries.map Prod.fst).Nodup)
    (hsl : ∀ e ∈ entries, '/' ∉ e.1) :
    (triageWrite (fuel + 2) key (.pDict (entries.map (fun e => (e.1, PyVal.pInt e.2))))
        root .werror true).map
        (fun r => (((listChildren r key).map Prod.fst).toFinset,
                   ((listChildren r key).map Prod.fst).length))
      = .ok ((entries.map (fun e => keyName e.1)).toFinset, entries.length) := by
  have hsub : getSubRoot root key .tDict = (ch0, none) := by
    simp [getSubRoot, hlk]
  rw [triageWrite_dict_root (fuel + 1) key _ root .werror, hsub]
  rw [show ((ch0, (none : Option Nat)).1) = ch0 from rfl]
  rw [dictFoldInt fuel .werror entries ch0 hsl]
  set pv := entries.map (fun e => (e.1, PyVal.pInt e.2)) with hpv
  set ch1 := writeDictIntsPure entries ch0 with hch1
  obtain ⟨ch2, hpr, hlk2, hndp⟩ := lookup_dictPrune_werror (ch1.map Prod.fst) pv ch1
    (by rw [hch1]; exact nodup_fst_writeDictIntsPure entries ch0 hnd0)
    (fun nm hnm => (hasChild_iff_mem_fst ch1 nm).mpr hnm)
  have hany : ∀ name : HKey, (pv.any (fun e => e.1 = name.drop 4))
      = (entries.any (fun e => e.1 = name.drop 4)) := by
    intro name
    have hgen : ∀ (l : List (HKey × Int)),
        ((l.map (fun e => (e.1, PyVal.pInt e.2))).any (fun e => e.1 = name.drop 4))
          = l.any (fun e => e.1 = name.drop 4) := by
      intro l
      induction l with
      | nil => rfl
      | cons x rest ih => simp [List.any_cons, ih]
    exact hgen entries
  have hhas2 : ∀ name, hasChild ch2 name = true ↔ ∃ e ∈ entries, name = keyName e.1 := by
    intro name
    rw [hasChild, hlk2 name]
    constructor
    · intro h
      by_cases hcond : name ∈ ch1.map Prod.fst ∧
          (pv.any (fun e => e.1 = name.drop 4)) = false
      · rw [if_pos hcond] at h
        simp at h
      · rw [if_neg hcond] at h
        have hhas1 : hasChild ch1 name = true := h
        have hmem1 : name ∈ ch1.map Prod.fst := (hasChild_iff_mem_fst ch1 name).mp hhas1
        have hanytrue : (pv.any (fun e => e.1 = name.drop 4)) = true := by
          by_contra hfalse
          exact hcond ⟨hmem1, eq_false_of_ne_true hfalse⟩
        rw [hany] at hanytrue
        obtain ⟨e, he, hedrop⟩ := List.any_eq_true.mp hanytrue
        have hedrop' : e.1 = name.drop 4 := by
          simpa using hedrop
        have hprefix : keyMark <+: name := by
          rcases has_writeDictIntsPure_imp entries ch0 name (by rw [← hch1]; exact hhas1)
            with hin0 | ⟨x, _, hx⟩
          · have hmem0 : name ∈ ch0.map Prod.fst := (hasChild_iff_mem_fst ch0 name).mp hin0
            obtain ⟨p, hp, hpe⟩ := List.mem_map.mp hmem0
            rw [← hpe]
            exact hpre p hp
          · rw [hx]
            exact ⟨x.1, rfl⟩
        refine ⟨e, he, ?_⟩
        rw [keyMark_prefix_drop hprefix, ← hedrop']
    · rintro ⟨e, he, hname⟩
      have hlook : lookupChild ch1 name = some (.dataset .tInt (.ints [e.2])) := by
        rw [hname, hch1]
        exact lookup_writeDictIntsPure_mem entries ch0 e.1 e.2 hkeys (by simpa using he)
      have hanytrue : (pv.any (fun x => x.1 = name.drop 4)) = true := by
        rw [hany]
        apply List.any_eq_true.mpr
        refine ⟨e, he, ?_⟩
        rw [hname, keyName_drop]
        simp
      rw [if_neg (by rintro ⟨_, hf⟩; rw [hanytrue] at hf; exact Bool.noConfusion hf)]
      rw [hlook]
      rfl
  have hnd2 : (ch2.map Prod.fst).Nodup :=
    hndp (by rw [hch1]; exact nodup_fst_writeDictIntsPure entries ch0 hnd0)
  have htargetNd : ((entries.map (fun e => keyName e.1)).Nodup) := by
    have h1 : entries.map (fun e => keyName e.1) = (entries.map Prod.fst).map keyName := by
      rw [List.map_map]
      rfl
    rw [h1]
    exact hkeys.map keyName_injective
  have hsetEq : (ch2.map Prod.fst).toFinset = (entries.map (fun e => keyName e.1)).toFinset := by
    apply Finset.ext
    intro name
    rw [List.mem_toFinset, List.mem_toFinset, ← hasChild_iff_mem_fst, hhas2 name]
    simp only [List.mem_map]
    constructor
    · rintro ⟨e, he, hname⟩
      exact ⟨e, he, hname.symm⟩
    · rintro ⟨e, he, hname⟩
      exact ⟨e, he, hname.symm⟩
  have hlenEq : (ch2.map Prod.fst).length = entries.length := by
    have h1 := List.toFinset_card_of_nodup hnd2
    have h2 := List.toFinset_card_of_nodup htargetNd
    rw [hsetEq, h2] at h1
    simpa using h1.symm
  show ((dictPrune (ch1.map Prod.fst) pv .werror ch1).bind
      (fun c => Except.ok (setChild root key (.group .tDict none c)))).map
      (fun r => (((listChildren r key).map Prod.fst).toFinset,
                 ((listChildren r key).map Prod.fst).length))
    = .ok ((entries.map (fun e => keyName e.1)).toFinset, entries.length)
  rw [hpr]
  show Except.ok
      (((listChildren (setChild root key (.group .tDict none ch2)) key).map
          Prod.fst).toFinset,
        ((listChildren (setChild root key (.group .tDict none ch2)) key).map
          Prod.fst).length)
    = .ok ((entries.map (fun e => keyName e.1)).toFinset, entries.length)
  rw [listChildren_setChild, hsetEq, hlenEq]

/-- Witness for C3: a stored 5-key dict overwritten by the 2-key dict
x ↦ 10, y ↦ 20 keeps exactly the children key_x and key_y. -/
theorem spec_c3_dict_shrink_witness :
    (triageWrite 2 hTitle
        (.pDict (([(['x'], 10), (['y'], 20)] : List (HKey × Int)).map
          (fun e => (e.1, PyVal.pInt e.2))))
        [(hTitle, .group .tDict none
          [(keyName ['a'], .dataset .tInt (.ints [1])),
           (keyName ['b'], .dataset .tInt (.ints [2])),
           (keyName ['c'], .dataset .tInt (.ints [3])),
           (keyName ['d'], .dataset .tInt (.ints [4])),
           (keyName ['e'], .dataset .tInt (.ints [5]))])] .werror true).map
        (fun r => (((listChildren r hTitle).map Prod.fst).toFinset,
                   ((listChildren r hTitle).map Prod.fst).length))
      = .ok ((([(['x'], 10), (['y'], 20)] : List (HKey × Int)).map
          (fun e => keyName e.1)).toFinset, 2) :=
  spec_c3_dict_shrink 0 hTitle _ _ [(['x'], 10), (['y'], 20)] rfl
    (by decide) (by decide) (by decide) (by decide)

/-
Support for the slash-policy claim.
-/

theorem triageWrite_slash_error (fuel : Nat) (name : HKey) (v : PyVal) (ch : Children)
    (h : '/' ∈ name) :
    triageWrite (fuel + 1) name v ch .werror false = .error .slashForbidden := by
  have hc : (¬false = true ∧ '/' ∈ name) := ⟨by decide, h⟩
  unfold triageWrite
  rw [if_pos hc]
  rfl

theorem triageWrite_int_replace (fuel : Nat) (name : HKey) (v : Int) (ch : Children)
    (h : '/' ∈ name) :
    triageWrite (fuel + 1) name (.pInt v) ch .wreplace false
      = .ok (setChild ch (escapeKey name) (.dataset .tInt (.ints [v]))) := by
  have hc : (¬false = true ∧ '/' ∈ name) := ⟨by decide, h⟩
  unfold triageWrite
  rw [if_pos hc]
  rfl

theorem dictPrune_cons_wreplace (n0 : HKey) (rest : List HKey)
    (pv : List (HKey × PyVal)) (ch : Children) :
    dictPrune (n0 :: rest) pv .wreplace ch
      = if pv.any (fun e => e.1 = (unescapeKey n0).drop 4) then
          dictPrune rest pv .wreplace ch
        else if hasChild ch (unescapeKey n0) then
          dictPrune rest pv .wreplace (delChild ch (unescapeKey n0))
        else .error .keyError := rfl

theorem triageRead_dict_singleton (fuel : Nat) (name : HKey) (v : Int) (sz : Option Nat) :
    triageRead (fuel + 2) (.group .tDict sz [(name, .dataset .tInt (.ints [v]))]) .rreplace
      = .ok (.pDict [((unescapeKey name).drop 4, .pInt v)]) := rfl

theorem readTop_singleton (fuel : Nat) (nd : Node) (slash : RSlash) :
    readTop fuel [(hTitle, nd)] slash = triageRead fuel nd slash := rfl

/-- C8 counterexample: the non-root key "/{FWDSLASH}" contains '/', yet
under slashPolicy 'replace' it does not round-trip: escaping yields
"{FWDSLASH}{FWDSLASH}" and the value is stored under the child name
"key_{FWDSLASH}{FWDSLASH}". The reconciliation pass then decodes that
child name to "key_//", whose tail "//" is not a key of the mapping, and
performs the deletion at the decoded name "key_//" — which is not a
stored child — so the write raises a KeyError instead of completing:
there is no state to read the key back from. -/
theorem spec_c8_counterexample :
    ('/' ∈ (['/', '{', 'F', 'W', 'D', 'S', 'L', 'A', 'S', 'H', '}'] : HKey))
    ∧ (writeTop 2 []
          (.pDict [(['/', '{', 'F', 'W', 'D', 'S', 'L', 'A', 'S', 'H', '}'], .pInt 1)])
          .wreplace
        = .error .keyError)
    ∧ ((writeTop 2 []
          (.pDict [(['/', '{', 'F', 'W', 'D', 'S', 'L', 'A', 'S', 'H', '}'], .pInt 1)])
          .wreplace).bind (fun f => readTop 2 f .rreplace)
        ≠ .ok (.pDict [(['/', '{', 'F', 'W', 'D', 'S', 'L', 'A', 'S', 'H', '}'], .pInt 1)])) :=
  ⟨by decide, rfl, fun h => Except.noConfusion h⟩

/-- C8 (amended): for a non-root mapping key containing '/' and not
containing the literal escape token "{FWDSLASH}": the write fails with the
slash error under slashPolicy 'error', and under 'replace' the separator
is substituted with the escape token on write and substituted back on read
with 'replace', so the key round-trips unchanged. -/
theorem spec_c8_slash_policy_amended (k : HKey) (n : Int)
    (hk : '/' ∈ k) (htf : containsToken k = false) :
    writeTop 2 [] (.pDict [(k, .pInt n)]) .werror = .error .slashForbidden
    ∧ (writeTop 2 [] (.pDict [(k, .pInt n)]) .wreplace).bind
        (fun f => readTop 2 f .rreplace)
      = .ok (.pDict [(k, .pInt n)]) := by
  have hmem : '/' ∈ keyMark ++ k := List.mem_append.mpr (Or.inr hk)
  constructor
  · show triageWrite 2 hTitle (.pDict [(k, .pInt n)]) [] .werror true = .error .slashForbidden
    rw [triageWrite_dict_root 1 hTitle [(k, .pInt n)] [] .werror]
    have hstep :
        ([(k, PyVal.pInt n)].foldlM
          (fun ch e => triageWrite 1 (keyMark ++ e.1) e.2 ch .werror false)
          ((getSubRoot [] hTitle .tDict).1))
        = (triageWrite 1 (keyMark ++ k) (.pInt n) [] .werror false).bind
            (fun ch' => .ok ch') := rfl
    rw [hstep, triageWrite_slash_error 0 (keyMark ++ k) (.pInt n) [] hmem]
    rfl
  · have hename : escapeKey (keyMark ++ k) = keyMark ++ escapeKey k := by
      rw [escapeKey_append, escapeKey_no_slash keyMark (by decide)]
    have hdec : unescapeKey (keyMark ++ escapeKey k) = keyMark ++ k := by
      rw [unescape_append_nobrace keyMark (escapeKey k) (by decide),
        unescape_escape_of_tokenFree k htf]
    show (triageWrite 2 hTitle (.pDict [(k, .pInt n)]) [] .wreplace true).bind
        (fun f => readTop 2 f .rreplace) = .ok (.pDict [(k, .pInt n)])
    rw [triageWrite_dict_root 1 hTitle [(k, .pInt n)] [] .wreplace]
    have hstep :
        ([(k, PyVal.pInt n)].foldlM
          (fun ch e => triageWrite 1 (keyMark ++ e.1) e.2 ch .wreplace false)
          ((getSubRoot [] hTitle .tDict).1))
        = (triageWrite 1 (keyMark ++ k) (.pInt n) [] .wreplace false).bind
            (fun ch' => .ok ch') := rfl
    rw [hstep, triageWrite_int_replace 0 (keyMark ++ k) n [] hmem, hename]
    have hprune : dictPrune [keyMark ++ escapeKey k] [(k, PyVal.pInt n)] .wreplace
        [(keyMark ++ escapeKey k, .dataset .tInt (.ints [n]))]
        = .ok [(keyMark ++ escapeKey k, .dataset .tInt (.ints [n]))] := by
      rw [dictPrune_cons_wreplace, hdec]
      rw [show (keyMark ++ k).drop 4 = k from rfl]
      rw [if_pos (by simp)]
      rfl
    show ((dictPrune [keyMark ++ escapeKey k] [(k, PyVal.pInt n)] .wreplace
          [(keyMark ++ escapeKey k, Node.dataset .tInt (.ints [n]))]).bind
        (fun c => Except.ok (setChild [] hTitle (Node.group Tag.tDict none c)))).bind
        (fun f => readTop 2 f .rreplace)
      = .ok (.pDict [(k, .pInt n)])
    rw [hprune]
    show readTop 2
        [(hTitle, Node.group Tag.tDict none
          [(keyMark ++ escapeKey k, Node.dataset .tInt (.ints [n]))])] .rreplace
      = .ok (.pDict [(k, .pInt n)])
    rw [readTop_singleton 2 _ .rreplace,
      show (2 : Nat) = 0 + 2 from rfl,
      triageRead_dict_singleton 0 (keyMark ++ escapeKey k) n none, hdec]
    rw [show (keyMark ++ k).drop 4 = k from rfl]

/-- Witness for C8: the amended round-trip at the key "a/b". -/
theorem spec_c8_slash_policy_amended_witness :
    writeTop 2 [] (.pDict [(['a', '/', 'b'], .pInt 7)]) .werror = .error .slashForbidden
    ∧ (writeTop 2 [] (.pDict [(['a', '/', 'b'], .pInt 7)]) .wreplace).bind
        (fun f => readTop 2 f .rreplace)
      = .ok (.pDict [(['a', '/', 'b'], .pInt 7)]) :=
  spec_c8_slash_policy_amended ['a', '/', 'b'] 7 (by decide) (by decide)

/-
Support for the chunked-list assembly claim.
-/

theorem mapM_ok_pointwise (l : List Nat) (F : Nat → Except Err PyVal) (G : Nat → PyVal)
    (h : ∀ x ∈ l, F x = .ok (G x)) : l.mapM F = .ok (l.map G) := by
  induction l with
  | nil => rfl
  | cons a rest ih =>
      rw [List.mapM_cons, h a (by simp), ih (fun x hx => h x (by simp [hx]))]
      rfl

theorem getD_map_range (g : Nat → Int) (l j : Nat) (hj : j < l) :
    ((List.range l).map g).getD j 0 = g j := by
  rw [List.getD_eq_getElem?_getD, List.getElem?_map, List.getElem?_range hj]
  rfl

theorem writeTop_chunkedlist_fresh (fuel : Nat) (vals : List Int) (N s : Nat) :
    writeTop (fuel + 2) [] (.pChunkedList (vals.map PyVal.pInt) N s) .werror
      = .ok [(hTitle, .group .tChunkedList (some N) (writeIntsPure vals s []))] := by
  have hcond : ¬ (¬True ∧ '/' ∈ hTitle) := by simp
  show triageWrite (fuel + 2) hTitle (.pChunkedList (vals.map PyVal.pInt) N s) [] .werror true
    = _
  simp only [triageWrite]
  rw [if_neg hcond]
  show ((List.enumFrom s (vals.map PyVal.pInt)).foldlM
      (fun ch e => triageWrite (fuel + 1) (idxName e.1) e.2 ch .werror false) []).bind
      (fun ch1 => Except.ok (setChild [] hTitle (.group .tChunkedList (some N) ch1)))
    = _
  rw [seqFoldInt fuel .werror vals s []]
  rfl

theorem writeTop_chunkedlist_existing (fuel : Nat) (vals : List Int) (N s : Nat)
    (ch : Children) :
    writeTop (fuel + 2) [(hTitle, .group .tChunkedList (some N) ch)]
        (.pChunkedList (vals.map PyVal.pInt) N s) .werror
      = .ok [(hTitle, .group .tChunkedList (some N) (writeIntsPure vals s ch))] := by
  have hcond : ¬ (¬True ∧ '/' ∈ hTitle) := by simp
  show triageWrite (fuel + 2) hTitle (.pChunkedList (vals.map PyVal.pInt) N s)
      [(hTitle, .group .tChunkedList (some N) ch)] .werror true = _
  simp only [triageWrite]
  rw [if_neg hcond]
  show ((List.enumFrom s (vals.map PyVal.pInt)).foldlM
      (fun ch e => triageWrite (fuel + 1) (idxName e.1) e.2 ch .werror false)
      (if N ≠ N then (([] : Children), N) else (ch, N)).1).bind
      (fun ch1 => Except.ok (setChild [(hTitle, .group .tChunkedList (some N) ch)] hTitle
        (.group .tChunkedList (some ((if N ≠ N then (([] : Children), N) else (ch, N)).2)) ch1)))
    = _
  rw [if_neg (by simp : ¬ N ≠ N)]
  rw [show ((ch, N).1) = ch from rfl, show ((ch, N).2) = N from rfl]
  rw [seqFoldInt fuel .werror vals s ch]
  rfl

theorem chunkInv_step (M : Nat → Int) (s l : Nat) (ch : Children) (cov : Nat → Bool)
    (h : ∀ i, lookupChild ch (idxName i)
      = if cov i then some (.dataset .tInt (.ints [M i])) else none) :
    ∀ i, lookupChild (writeIntsPure ((List.range l).map (fun j => M (s + j))) s ch) (idxName i)
      = if (decide (s ≤ i ∧ i < s + l) || cov i)
        then some (.dataset .tInt (.ints [M i])) else none := by
  intro i
  rw [lookup_writeIntsPure_idx]
  simp only [List.length_map, List.length_range]
  by_cases hin : s ≤ i ∧ i < s + l
  · rw [if_pos hin, if_pos (by simp [hin])]
    rw [getD_map_range (fun j => M (s + j)) l (i - s) (by omega)]
    have : s + (i - s) = i := by omega
    rw [this]
  · rw [if_neg hin, h i]
    have hd : decide (s ≤ i ∧ i < s + l) = false := by simp [hin]
    rw [hd, Bool.false_or]

theorem readTop_chunkedlist (fuel : Nat) (N : Nat) (ch : Children) (G : Nat → PyVal)
    (h : ∀ i ∈ List.range N,
      (match lookupChild ch (idxName i) with
       | none => Except.ok PyVal.pNone
       | some nd => triageRead (fuel + 1) nd .rignore) = .ok (G i)) :
    readTop (fuel + 2) [(hTitle, .group .tChunkedList (some N) ch)] .rignore
      = .ok (.pList ((List.range N).map G)) := by
  rw [readTop_singleton]
  show ((List.range N).mapM (fun i => match lookupChild ch (idxName i) with
      | none => Except.ok PyVal.pNone
      | some nd => triageRead (fuel + 1) nd .rignore)).bind
      (fun vals => (Except.ok (PyVal.pList vals) : Except Err PyVal))
    = .ok (.pList ((List.range N).map G))
  rw [mapM_ok_pointwise (List.range N) _ G h]
  rfl

theorem writeChunkFrags_inv (M : Nat → Int) (N : Nat) :
    ∀ (frags : List (Nat × Nat)) (ch : Children) (cov : Nat → Bool),
    (∀ i, lookupChild ch (idxName i)
      = if cov i then some (.dataset .tInt (.ints [M i])) else none) →
    ∃ ch', writeChunkFrags M N frags [(hTitle, .group .tChunkedList (some N) ch)]
        = .ok [(hTitle, .group .tChunkedList (some N) ch')]
      ∧ ∀ i, lookupChild ch' (idxName i)
          = if (coveredBy frags i || cov i)
            then some (.dataset .tInt (.ints [M i])) else none := by
  intro frags
  induction frags with
  | nil =>
      intro ch cov h
      refine ⟨ch, rfl, ?_⟩
      intro i
      rw [h i]
      rfl
  | cons p rest ih =>
      intro ch cov h
      obtain ⟨s, l⟩ := p
      have hmm : (List.range l).map (fun j => PyVal.pInt (M (s + j)))
          = ((List.range l).map (fun j => M (s + j))).map PyVal.pInt := by
        rw [List.map_map]
        rfl
      have hstep : writeChunkFrags M N ((s, l) :: rest)
            [(hTitle, .group .tChunkedList (some N) ch)]
          = (writeTop 2 [(hTitle, .group .tChunkedList (some N) ch)]
              (.pChunkedList ((List.range l).map (fun j => PyVal.pInt (M (s + j)))) N s)
              .werror).bind
            (fun f => writeChunkFrags M N rest f) := rfl
      rw [hstep, hmm,
        writeTop_chunkedlist_existing 0 ((List.range l).map (fun j => M (s + j))) N s ch]
      have hinv1 := chunkInv_step M s l ch cov h
      obtain ⟨ch', heq, hinv⟩ := ih (writeIntsPure ((List.range l).map (fun j => M (s + j))) s ch)
        (fun i => decide (s ≤ i ∧ i < s + l) || cov i) hinv1
      refine ⟨ch', heq, ?_⟩
      intro i
      rw [hinv i]
      have hcond : (coveredBy rest i || (decide (s ≤ i ∧ i < s + l) || cov i))
          = (coveredBy ((s, l) :: rest) i || cov i) := by
        rw [show coveredBy ((s, l) :: rest) i
            = (decide (s ≤ i ∧ i < s + l) || coveredBy rest i) from by
          rw [coveredBy, List.any_cons]
          rfl]
        cases coveredBy rest i <;> cases cov i <;> cases decide (s ≤ i ∧ i < s + l) <;> rfl
      rw [hcond]

/-- C6: writing chunked-list fragments with a fixed total SIZE N at
arbitrary (sequential or non-contiguous, possibly overlapping) start
offsets, each fragment carrying the slice of one master sequence M that
begins at its start offset, and then reading, yields an N-element sequence
whose element at every index some fragment wrote equals the written
sub-value M i, and which is Null (`pNone`) at every never-written index.
The ChunkedList fragment itself is modelled from the spec, since
chunked_list.py is not among the sources. -/
theorem spec_c6_chunked_list_assembly (M : Nat → Int) (N : Nat)
    (frags : List (Nat × Nat)) (hne : frags ≠ [])
    (hb : ∀ p ∈ frags, p.1 + p.2 ≤ N) :
    (writeChunkFrags M N frags []).bind (fun f => readTop 2 f .rignore)
      = .ok (.pList ((List.range N).map
          (fun i => if coveredBy frags i then PyVal.pInt (M i) else PyVal.pNone))) := by
  cases frags with
  | nil => exact absurd rfl hne
  | cons p rest =>
      obtain ⟨s, l⟩ := p
      have hmm : (List.range l).map (fun j => PyVal.pInt (M (s + j)))
          = ((List.range l).map (fun j => M (s + j))).map PyVal.pInt := by
        rw [List.map_map]
        rfl
      have hstep : writeChunkFrags M N ((s, l) :: rest) []
          = (writeTop 2 []
              (.pChunkedList ((List.range l).map (fun j => PyVal.pInt (M (s + j)))) N s)
              .werror).bind
            (fun f => writeChunkFrags M N rest f) := rfl
      rw [hstep, hmm,
        writeTop_chunkedlist_fresh 0 ((List.range l).map (fun j => M (s + j))) N s]
      have hinv0 : ∀ i, lookupChild ([] : Children) (idxName i)
          = if (false : Bool) then some (.dataset .tInt (.ints [M i])) else none :=
        fun _ => rfl
      have hinv1 := chunkInv_step M s l [] (fun _ => false) hinv0
      obtain ⟨ch', heq, hinv⟩ := writeChunkFrags_inv M N rest
        (writeIntsPure ((List.range l).map (fun j => M (s + j))) s [])
        (fun i => decide (s ≤ i ∧ i < s + l) || false) hinv1
      show (writeChunkFrags M N rest [(hTitle, .group .tChunkedList (some N)
          (writeIntsPure ((List.range l).map (fun j => M (s + j))) s []))]).bind
          (fun f => readTop 2 f .rignore)
        = _
      rw [heq]
      show readTop 2 [(hTitle, .group .tChunkedList (some N) ch')] .rignore = _
      have hcov : ∀ i, (coveredBy rest i || (decide (s ≤ i ∧ i < s + l) || false))
          = coveredBy ((s, l) :: rest) i := by
        intro i
        rw [show coveredBy ((s, l) :: rest) i
            = (decide (s ≤ i ∧ i < s + l) || coveredBy rest i) from by
          rw [coveredBy, List.any_cons]
          rfl]
        cases coveredBy rest i <;> cases decide (s ≤ i ∧ i < s + l) <;> rfl
      have hpt : ∀ i ∈ List.range N,
          (match lookupChild ch' (idxName i) with
           | none => Except.ok PyVal.pNone
           | some nd => triageRead (0 + 1) nd .rignore)
          = .ok (if coveredBy ((s, l) :: rest) i then PyVal.pInt (M i) else PyVal.pNone) := by
        intro i _
        rw [hinv i, hcov i]
        cases hc : coveredBy ((s, l) :: rest) i <;> rfl
      exact readTop_chunkedlist 0 N ch' _ hpt

/-- Witness for C6: a 10-element chunked list written as the two fragments
[0, 2) and [5, 8) of the master sequence i ↦ i reads back as the dense
list with Null holes. -/
theorem spec_c6_chunked_list_assembly_witness :
    (writeChunkFrags (fun i => (i : Int)) 10 [(0, 2), (5, 3)] []).bind
      (fun f => readTop 2 f .rignore)
    = .ok (.pList ((List.range 10).map
        (fun i => if coveredBy [(0, 2), (5, 3)] i then PyVal.pInt i else PyVal.pNone))) :=
  spec_c6_chunked_list_assembly (fun i => (i : Int)) 10 [(0, 2), (5, 3)]
    (by simp) (by decide)
